import Mathlib

/-!
Verification of the recursive file-copy library (`copy.go`).

The embedding models the filesystem as a finite map from paths to nodes,
paths as lists of name components (`filepath.Join` is list append,
`filepath.Dir` drops the last component, and `filepath.FromSlash` is the
identity because separators are abstracted away by the component list).
Every operating-system call is a deterministic function on this filesystem
that also appends an operation record to a trace, so that claims about
"no read / no write / no effect" are statable.  Fallible calls return an
explicit error.  The Go functions `Copy`, `CopyButSkipSome`, `copy`,
`fcopy`, `dcopy`, `lcopy`, `onsymlink`, `fclose` and `chmod` are embedded
one to one; the recursion of `copy`/`dcopy`/`onsymlink` is made structural
with a fuel parameter (Go has unbounded recursion; a cyclic symlink chain
under the Deep policy really can recurse forever, so fuel is essential),
and the recursive occurrence of `copy` inside `dcopy`/`onsymlink` is
passed as an explicit argument `copyRec`.
-/

/-- Decidable equality of `Except` results, used to evaluate concrete runs
of the model in witnesses. -/
instance {ε α : Type} [DecidableEq ε] [DecidableEq α] : DecidableEq (Except ε α) := fun a b =>
  match a, b with
  | .ok x, .ok y =>
    if h : x = y then isTrue (by rw [h])
    else isFalse (by intro hc; injection hc with h2; exact h h2)
  | .ok _, .error _ => isFalse (fun hc => Except.noConfusion hc)
  | .error _, .ok _ => isFalse (fun hc => Except.noConfusion hc)
  | .error x, .error y =>
    if h : x = y then isTrue (by rw [h])
    else isFalse (by intro hc; injection hc with h2; exact h h2)

namespace GoCopy

/-- Path is a list of name components; `filepath.Join p [n] = p ++ [n]`,
`filepath.Dir p = p.dropLast`. -/
abbrev Path := List String

/-- Node is a filesystem object: a regular file with permission mode and
byte content, a directory with permission mode, or a symbolic link with an
(unresolved) target path. -/
inductive Node where
  | file (mode : Nat) (content : List Nat)
  | dir (mode : Nat)
  | symlink (target : Path)
deriving DecidableEq, Repr

/-- Ftype is the kind of a filesystem entry, as reported by `os.FileInfo`. -/
inductive Ftype where
  | file
  | dir
  | symlink
deriving DecidableEq, Repr

/-- FInfo embeds `os.FileInfo`: name, kind and permission mode as obtained
from a non-following stat.  Contents are never part of an FInfo: the file
copier re-reads the file itself. -/
structure FInfo where
  name : String
  ftype : Ftype
  mode : Nat
deriving DecidableEq, Repr

/-- Mode bits of a node; a symlink's permission bits are irrelevant to the
program (only its kind is ever inspected), so they are reported as 0. -/
def Node.modeOf : Node → Nat
  | .file m _ => m
  | .dir m => m
  | .symlink _ => 0

/-- Kind of a node. -/
def Node.ftypeOf : Node → Ftype
  | .file _ _ => .file
  | .dir _ => .dir
  | .symlink _ => .symlink

/-- Stat descriptor of a node under a given name. -/
def Node.finfo (n : Node) (name : String) : FInfo :=
  ⟨name, n.ftypeOf, n.modeOf⟩

/-- Errors of the filesystem model, tagged with the offending path. -/
inductive Err where
  | noEnt (p : Path)
  | notDir (p : Path)
  | isDir (p : Path)
  | notFile (p : Path)
  | notSymlink (p : Path)
  | eexist (p : Path)
  | outOfFuel
deriving DecidableEq, Repr

/-- FS is the filesystem: an association list from paths to nodes (first
match wins; `insert` keeps at most one binding per path). -/
structure FS where
  entries : List (Path × Node)
deriving DecidableEq, Repr

/-- Look a path up in the filesystem (non-following: a symlink at the path
is returned as such). -/
def FS.lookup (fs : FS) (p : Path) : Option Node :=
  (fs.entries.find? (fun e => e.1 == p)).map (fun e => e.2)

/-- Bind a path to a node, replacing any previous binding. -/
def FS.insert (fs : FS) (p : Path) (n : Node) : FS :=
  ⟨(p, n) :: fs.entries.filter (fun e => e.1 != p)⟩

/-- True when the path can serve as the parent of a new entry: either the
implicit root `[]` or an existing directory. -/
def FS.isDirAt (fs : FS) (p : Path) : Bool :=
  p == ([] : Path) ||
    (match fs.lookup p with
     | some (.dir _) => true
     | _ => false)

/-- Insertion of one name into a sorted name list (strict order, so the
result is deterministic); models the sorted listing of `ioutil.ReadDir`. -/
def insertSorted (x : String) : List String → List String
  | [] => [x]
  | y :: ys => if x < y then x :: y :: ys else y :: insertSorted x ys

/-- Sort a list of names. -/
def sortNames (l : List String) : List String :=
  l.foldr insertSorted []

/-- Names of the immediate children of `p`: last components of bound paths
whose parent is `p`, deduplicated and sorted (as `ioutil.ReadDir` sorts by
file name). -/
def FS.childNames (fs : FS) (p : Path) : List String :=
  sortNames ((fs.entries.filterMap
    (fun e => if e.1.dropLast == p && e.1 != ([] : Path) then e.1.getLast? else none)).dedup)

/-- Model of `os.Lstat`: stat without following the final symlink. -/
def FS.lstat (fs : FS) (p : Path) : Except Err FInfo :=
  match fs.lookup p with
  | some n => .ok (n.finfo (p.getLastD ""))
  | none => .error (.noEnt p)

/-- Model of `os.MkdirAll` walking the components of the path: a missing
prefix is created as a directory with the given mode, an existing directory
prefix is left untouched (mode unchanged), anything else is an error. -/
def FS.mkdirs (fs : FS) (base : Path) (rest : List String) (mode : Nat) : Except Err FS :=
  match rest with
  | [] => .ok fs
  | n :: rest =>
    match fs.lookup (base ++ [n]) with
    | none => FS.mkdirs (fs.insert (base ++ [n]) (.dir mode)) (base ++ [n]) rest mode
    | some (.dir _) => FS.mkdirs fs (base ++ [n]) rest mode
    | some _ => .error (.notDir (base ++ [n]))

/-- Model of `os.MkdirAll` from the root. -/
def FS.mkdirAll (fs : FS) (p : Path) (mode : Nat) : Except Err FS :=
  FS.mkdirs fs [] p mode

/-- Model of `os.Create`: truncate-or-create.  An existing file keeps its
mode and loses its content; a missing entry is created with mode 0666 when
the parent directory exists; a directory cannot be created over.  (Creation
through a symlink at the destination is not modelled and errors out; the
program never reaches that case in the verified scenarios.) -/
def FS.create (fs : FS) (p : Path) : Except Err FS :=
  if p == ([] : Path) then .error (.isDir p)
  else
    match fs.lookup p with
    | some (.dir _) => .error (.isDir p)
    | some (.symlink _) => .error (.notFile p)
    | some (.file m _) => .ok (fs.insert p (.file m []))
    | none =>
      if fs.isDirAt p.dropLast then .ok (fs.insert p (.file 0o666 []))
      else .error (.noEnt p.dropLast)

/-- Model of `os.Chmod` on files and directories (the program only chmods
paths it just created as files or directories). -/
def FS.chmod (fs : FS) (p : Path) (mode : Nat) : Except Err FS :=
  match fs.lookup p with
  | some (.file _ c) => .ok (fs.insert p (.file mode c))
  | some (.dir _) => .ok (fs.insert p (.dir mode))
  | some (.symlink _) => .error (.notFile p)
  | none => .error (.noEnt p)

/-- Model of `ioutil.ReadDir`: stat descriptors of the immediate children,
sorted by name. -/
def FS.readDir (fs : FS) (p : Path) : Except Err (List FInfo) :=
  match fs.lookup p with
  | some (.dir _) =>
    .ok ((fs.childNames p).filterMap
      (fun n => (fs.lookup (p ++ [n])).map (fun node => node.finfo n)))
  | some _ => .error (.notDir p)
  | none => .error (.noEnt p)

/-- Model of `os.Open` followed by reading the whole content (the read side
of `io.Copy`). -/
def FS.openRead (fs : FS) (p : Path) : Except Err (List Nat) :=
  match fs.lookup p with
  | some (.file _ c) => .ok c
  | some _ => .error (.notFile p)
  | none => .error (.noEnt p)

/-- Model of `os.Readlink`. -/
def FS.readlink (fs : FS) (p : Path) : Except Err Path :=
  match fs.lookup p with
  | some (.symlink t) => .ok t
  | some _ => .error (.notSymlink p)
  | none => .error (.noEnt p)

/-- Model of the write side of `io.Copy` into the handle created at `p`. -/
def FS.writeAll (fs : FS) (p : Path) (content : List Nat) : Except Err FS :=
  match fs.lookup p with
  | some (.file m _) => .ok (fs.insert p (.file m content))
  | some _ => .error (.notFile p)
  | none => .error (.noEnt p)

/-- Model of `os.Symlink target p`: fails when anything already exists at
`p` (EEXIST) or when the parent directory is missing. -/
def FS.symlink (fs : FS) (target : Path) (p : Path) : Except Err FS :=
  if p == ([] : Path) then .error (.eexist p)
  else
    match fs.lookup p with
    | some _ => .error (.eexist p)
    | none =>
      if fs.isDirAt p.dropLast then .ok (fs.insert p (.symlink target))
      else .error (.noEnt p.dropLast)

/-- Record of one operating-system call, for trace-based claims. -/
inductive SysOp where
  | lstatOp (p : Path)
  | readDirOp (p : Path)
  | openReadOp (p : Path)
  | readlinkOp (p : Path)
  | mkdirAllOp (p : Path)
  | createOp (p : Path)
  | chmodOp (p : Path)
  | writeOp (p : Path)
  | symlinkOp (target : Path) (p : Path)
deriving DecidableEq, Repr

/-- Source path read by an operation, when the operation is a read
(stat, directory listing, open-for-read, readlink). -/
def SysOp.readPath : SysOp → Option Path
  | .lstatOp p => some p
  | .readDirOp p => some p
  | .openReadOp p => some p
  | .readlinkOp p => some p
  | _ => none

/-- St is the world state threaded through the program: the filesystem and
the chronological trace of operating-system calls. -/
structure St where
  fs : FS
  tr : List SysOp
deriving DecidableEq, Repr

/-- Outcome of running a program fragment: a result or an error, in both
cases together with the final state (effects persist across failures). -/
inductive Out (α : Type) where
  | ok (a : α) (s : St)
  | err (e : Err) (s : St)
deriving DecidableEq, Repr

/-- Final state of an outcome. -/
def Out.st : Out α → St
  | .ok _ s => s
  | .err _ s => s

/-- M is the effectful program type: state in, outcome out. -/
abbrev M (α : Type) : Type := St → Out α

/-- Traced `os.Lstat`. -/
def mLstat (p : Path) : M FInfo := fun s =>
  match FS.lstat s.fs p with
  | .ok i => .ok i ⟨s.fs, s.tr ++ [.lstatOp p]⟩
  | .error e => .err e ⟨s.fs, s.tr ++ [.lstatOp p]⟩

/-- Traced `os.MkdirAll`. -/
def mMkdirAll (p : Path) (mode : Nat) : M Unit := fun s =>
  match FS.mkdirAll s.fs p mode with
  | .ok fs => .ok () ⟨fs, s.tr ++ [.mkdirAllOp p]⟩
  | .error e => .err e ⟨s.fs, s.tr ++ [.mkdirAllOp p]⟩

/-- Traced `os.Create`. -/
def mCreate (p : Path) : M Unit := fun s =>
  match FS.create s.fs p with
  | .ok fs => .ok () ⟨fs, s.tr ++ [.createOp p]⟩
  | .error e => .err e ⟨s.fs, s.tr ++ [.createOp p]⟩

/-- Traced `os.Chmod`. -/
def mChmod (p : Path) (mode : Nat) : M Unit := fun s =>
  match FS.chmod s.fs p mode with
  | .ok fs => .ok () ⟨fs, s.tr ++ [.chmodOp p]⟩
  | .error e => .err e ⟨s.fs, s.tr ++ [.chmodOp p]⟩

/-- Traced `ioutil.ReadDir`. -/
def mReadDir (p : Path) : M (List FInfo) := fun s =>
  match FS.readDir s.fs p with
  | .ok l => .ok l ⟨s.fs, s.tr ++ [.readDirOp p]⟩
  | .error e => .err e ⟨s.fs, s.tr ++ [.readDirOp p]⟩

/-- Traced `os.Open` plus full read. -/
def mOpen (p : Path) : M (List Nat) := fun s =>
  match FS.openRead s.fs p with
  | .ok c => .ok c ⟨s.fs, s.tr ++ [.openReadOp p]⟩
  | .error e => .err e ⟨s.fs, s.tr ++ [.openReadOp p]⟩

/-- Traced `os.Readlink`. -/
def mReadlink (p : Path) : M Path := fun s =>
  match FS.readlink s.fs p with
  | .ok t => .ok t ⟨s.fs, s.tr ++ [.readlinkOp p]⟩
  | .error e => .err e ⟨s.fs, s.tr ++ [.readlinkOp p]⟩

/-- Traced write of the whole content. -/
def mWriteAll (p : Path) (content : List Nat) : M Unit := fun s =>
  match FS.writeAll s.fs p content with
  | .ok fs => .ok () ⟨fs, s.tr ++ [.writeOp p]⟩
  | .error e => .err e ⟨s.fs, s.tr ++ [.writeOp p]⟩

/-- Traced `os.Symlink`. -/
def mSymlink (target : Path) (p : Path) : M Unit := fun s =>
  match FS.symlink s.fs target p with
  | .ok fs => .ok () ⟨fs, s.tr ++ [.symlinkOp target p]⟩
  | .error e => .err e ⟨s.fs, s.tr ++ [.symlinkOp target p]⟩

/-- SymlinkAction is the symlink policy result.  Modelled from the spec:
the `SymlinkAction` enum (`Shallow`, `Deep`, `Skip`) is declared in the
repository outside `copy.go`. -/
inductive SymlinkAction where
  | Shallow
  | Deep
  | Skip
deriving DecidableEq, Repr

/-- Options is the caller configuration.  Modelled from the spec: the
`Options` struct with its nilable `OnSymlink` policy hook is declared in
the repository outside `copy.go`. -/
structure Options where
  OnSymlink : Option (Path → SymlinkAction)

/-- DefaultOptions.  Modelled from the spec: the default policy function
always yields `Shallow`; declared in the repository outside `copy.go`. -/
def DefaultOptions : Options :=
  ⟨some (fun _ => SymlinkAction.Shallow)⟩

/-- Effective symlink policy of an option value: the configured hook, or
the default (constantly `Shallow`) hook when none is configured — the
`opt.OnSymlink == nil` check at the top of Go `onsymlink`. -/
def effOnSymlink (opt : Options) : Path → SymlinkAction :=
  match opt.OnSymlink with
  | some f => f
  | none => fun _ => SymlinkAction.Shallow

/-- Go constant `tmpPermissionForDirectory = os.FileMode(0755)`. -/
def tmpPermissionForDirectory : Nat := 0o755

/-- Sequencing of the Go pattern `x, err := op(); if err != nil { return
err }`: run `t`; on error propagate it (keeping the state reached so far),
on success continue with `k`. -/
def mbind {α β : Type} (t : M α) (k : α → M β) : M β := fun s =>
  match t s with
  | .ok a s1 => k a s1
  | .err e s1 => .err e s1

/-- Embedding of Go `fclose` applied as a deferred finalizer around the
remainder `r` of the operation: the close itself always succeeds in this
deterministic model, so the recorded error is unchanged (first error
wins); the general close-error capture is verified on `fcopyResult`
below. -/
def fcloseDefer (r : Out Unit) : Out Unit :=
  r

/-- Deferred `fclose` wrapped around a whole program fragment. -/
def fcloseDeferM (t : M Unit) : M Unit := fun s =>
  fcloseDefer (t s)

/-- Embedding of Go `chmod` (lines 161-165) applied as a deferred
finalizer around the remainder `r`: the chmod is attempted on every exit
path, and its error is recorded only when no error is recorded yet. -/
def chmodDefer (p : Path) (mode : Nat) (r : Out Unit) : Out Unit :=
  match r with
  | .ok _ s =>
    match mChmod p mode s with
    | .ok _ s1 => .ok () s1
    | .err e s1 => .err e s1
  | .err e s =>
    match mChmod p mode s with
    | .ok _ s1 => .err e s1
    | .err _ s1 => .err e s1

/-- Deferred mode-restoring `chmod` wrapped around a whole program
fragment, as `defer chmod(destdir, originalMode, &err)` wraps the body of
`dcopy`. -/
def chmodDeferM (p : Path) (mode : Nat) (t : M Unit) : M Unit := fun s =>
  chmodDefer p mode (t s)

/-- Embedding of Go `fcopy` (lines 59-83): make the destination's parent
directories with mode 0777 (`os.ModePerm`), create the destination file,
chmod it to the source mode, open the source and stream the bytes; the
two handles are closed by deferred `fclose` in last-in-first-out order
(`fcloseDeferM` for the destination handle wraps everything after
`Create`, the one for the source handle wraps the streaming only). -/
def fcopy (src dest : Path) (info : FInfo) : M Unit :=
  mbind (mMkdirAll dest.dropLast 0o777) fun _ =>
  mbind (mCreate dest) fun _ =>
  fcloseDeferM
    (mbind (mChmod dest info.mode) fun _ =>
     mbind (mOpen src) fun content =>
     fcloseDeferM (mWriteAll dest content))

/-- Embedding of Go `lcopy` (lines 143-149): read the link target and
create an identical symlink at the destination. -/
def lcopy (src dest : Path) : M Unit :=
  mbind (mReadlink src) fun target =>
  mSymlink target dest

/-- Embedding of the child loop of Go `dcopy` (lines 104-110): children in
listing order, each dispatched through `copyRec` (the recursive `copy`,
passed explicitly for termination), stopping at the first error. -/
def dchildren (copyRec : Path → Path → List Path → FInfo → Options → M Unit)
    (srcdir destdir : Path) (toSkip : List Path) (opt : Options) :
    List FInfo → M Unit
  | [] => fun s => .ok () s
  | c :: rest =>
    mbind (copyRec (srcdir ++ [c.name]) (destdir ++ [c.name]) toSkip c opt) fun _ =>
    dchildren copyRec srcdir destdir toSkip opt rest

/-- Embedding of Go `dcopy` (lines 88-113): record the source mode, make
the destination directory with `tmpPermissionForDirectory`, schedule the
unconditional mode-restoring `chmod` finalizer around everything after it,
list the source directory and dispatch every child. -/
def dcopy (copyRec : Path → Path → List Path → FInfo → Options → M Unit)
    (srcdir destdir : Path) (toSkip : List Path) (info : FInfo) (opt : Options) :
    M Unit :=
  mbind (mMkdirAll destdir tmpPermissionForDirectory) fun _ =>
  chmodDeferM destdir info.mode
    (mbind (mReadDir srcdir) fun contents =>
     dchildren copyRec srcdir destdir toSkip opt contents)

/-- Embedding of Go `onsymlink` (lines 115-139): resolve the effective
policy (defaulting a nil hook), then Shallow replicates the link, Deep
reads the target, lstats it and re-enters the dispatcher with an empty
skip set and the same options, Skip (and the default case) does nothing. -/
def onsymlink (copyRec : Path → Path → List Path → FInfo → Options → M Unit)
    (src dest : Path) (info : FInfo) (opt : Options) : M Unit :=
  match effOnSymlink opt src with
  | .Shallow => lcopy src dest
  | .Deep =>
    mbind (mReadlink src) fun orig =>
    mbind (mLstat orig) fun info2 =>
    copyRec orig dest [] info2 opt
  | .Skip => fun s => .ok () s

/-- Embedding of the Go dispatcher `copy` (lines 41-54): return success at
once for a skip-set member, otherwise branch on the entry kind.  The fuel
parameter bounds the recursion depth (the Go code is unboundedly
recursive); it is consumed only when a handler is entered, so the skip
check is fuel-independent, exactly as in the source. -/
def copy : Nat → Path → Path → List Path → FInfo → Options → M Unit
  | fuel, src, dest, toSkip, info, opt => fun s =>
    if toSkip.contains src then .ok () s
    else
      match fuel with
      | 0 => .err .outOfFuel s
      | fuel + 1 =>
        if info.ftype == .symlink then onsymlink (copy fuel) src dest info opt s
        else if info.ftype == .dir then dcopy (copy fuel) src dest toSkip info opt s
        else fcopy src dest info s

/-- Embedding of Go `CopyButSkipSome` (lines 23-36): build the skip set
(`filepath.FromSlash` is the identity on component paths), append the
default options and take the first, lstat the source and dispatch. -/
def CopyButSkipSome (fuel : Nat) (src dest : Path) (toSkip : List Path)
    (opt : List Options) : M Unit :=
  mbind (mLstat src) fun info =>
  copy fuel src dest toSkip info ((opt ++ [DefaultOptions]).headD DefaultOptions)

/-- Embedding of Go `Copy` (lines 18-20): delegate with a nil skip list. -/
def Copy (fuel : Nat) (src dest : Path) (opt : List Options) : M Unit :=
  CopyButSkipSome fuel src dest [] opt

/-! Basic lemmas about the filesystem map. -/

theorem FS.lookup_insert_self (fs : FS) (p : Path) (n : Node) :
    (fs.insert p n).lookup p = some n := by
  simp [FS.lookup, FS.insert]

theorem find?_filter_ne (l : List (Path × Node)) (p q : Path) (h : q ≠ p) :
    List.find? (fun e => e.1 == q) (l.filter (fun e => e.1 != p)) =
    List.find? (fun e => e.1 == q) l := by
  induction l with
  | nil => rfl
  | cons a l ih =>
    by_cases hq : a.1 = q
    · have h1 : (a.1 != p) = true := by
        simp only [bne_iff_ne, ne_eq, hq]
        exact h
      have h2 : (a.1 == q) = true := by
        simp [hq]
      simp [List.filter_cons, List.find?, h1, h2]
    · have h2 : (a.1 == q) = false := by
        simp [hq]
      cases h1 : (a.1 != p) with
      | true => simp [List.filter_cons, List.find?, h1, h2, ih]
      | false => simp [List.filter_cons, List.find?, h1, h2, ih]

theorem FS.lookup_insert_ne (fs : FS) (p q : Path) (n : Node) (h : q ≠ p) :
    (fs.insert p n).lookup q = fs.lookup q := by
  have hpq : (p == q) = false := by
    simp [Ne.symm h]
  simp only [FS.lookup, FS.insert, List.find?, hpq]
  rw [find?_filter_ne fs.entries p q h]

/-- Bindings present before a `mkdirs` walk are still present (with the same
node) afterwards: the walk inserts only at missing paths. -/
theorem FS.mkdirs_preserves (base : Path) (rest : List String) :
    ∀ (fs fs' : FS) (mode : Nat), FS.mkdirs fs base rest mode = .ok fs' →
    ∀ q n, fs.lookup q = some n → fs'.lookup q = some n := by
  induction rest generalizing base with
  | nil =>
    intro fs fs' mode h q n hq
    simp [FS.mkdirs] at h
    simpa [h] using hq
  | cons a rest ih =>
    intro fs fs' mode h q n hq
    simp only [FS.mkdirs] at h
    cases hl : fs.lookup (base ++ [a]) with
    | none =>
      rw [hl] at h
      have hqne : q ≠ base ++ [a] := by
        intro he
        rw [he, hl] at hq
        exact Option.noConfusion hq
      have := ih (base ++ [a]) (fs.insert (base ++ [a]) (.dir mode)) fs' mode h q n
      exact this (by rw [FS.lookup_insert_ne _ _ _ _ hqne]; exact hq)
    | some node =>
      cases node with
      | dir m =>
        rw [hl] at h
        exact ih (base ++ [a]) fs fs' mode h q n hq
      | file m c => rw [hl] at h; exact Except.noConfusion h
      | symlink t => rw [hl] at h; exact Except.noConfusion h

/-- Bindings present before `MkdirAll` survive it unchanged. -/
theorem FS.mkdirAll_preserves (fs fs' : FS) (p : Path) (mode : Nat)
    (h : FS.mkdirAll fs p mode = .ok fs') :
    ∀ q n, fs.lookup q = some n → fs'.lookup q = some n :=
  FS.mkdirs_preserves [] p fs fs' mode h

/-- A successful `mkdirs` walk leaves its full target path bound to a
directory. -/
theorem FS.mkdirs_target_dir (base : Path) (rest : List String) :
    ∀ (fs fs' : FS) (mode : Nat), FS.mkdirs fs base rest mode = .ok fs' →
    rest ≠ [] → ∃ m, fs'.lookup (base ++ rest) = some (.dir m) := by
  induction rest generalizing base with
  | nil => intro fs fs' mode h hne; exact absurd rfl hne
  | cons a rest ih =>
    intro fs fs' mode h _
    simp only [FS.mkdirs] at h
    cases hl : fs.lookup (base ++ [a]) with
    | none =>
      rw [hl] at h
      cases rest with
      | nil =>
        simp [FS.mkdirs] at h
        exact ⟨mode, by
          rw [← h]
          simpa using FS.lookup_insert_self fs (base ++ [a]) (.dir mode)⟩
      | cons b rest' =>
        have := ih (base ++ [a]) _ fs' mode h (by simp)
        simpa using this
    | some node =>
      cases node with
      | dir m =>
        rw [hl] at h
        cases rest with
        | nil =>
          simp [FS.mkdirs] at h
          exact ⟨m, by rw [← h]; simpa using hl⟩
        | cons b rest' =>
          have := ih (base ++ [a]) _ fs' mode h (by simp)
          simpa using this
      | file m c => rw [hl] at h; exact Except.noConfusion h
      | symlink t => rw [hl] at h; exact Except.noConfusion h

/-- A successful `MkdirAll` leaves the target path bound to a directory. -/
theorem FS.mkdirAll_target_dir (fs fs' : FS) (p : Path) (mode : Nat)
    (h : FS.mkdirAll fs p mode = .ok fs') (hne : p ≠ []) :
    ∃ m, fs'.lookup p = some (.dir m) := by
  have := FS.mkdirs_target_dir [] p fs fs' mode h hne
  simpa using this

/-- When the target was missing beforehand, a successful `MkdirAll` binds it
to a directory with exactly the requested mode. -/
theorem FS.mkdirs_creates_mode (base : Path) (rest : List String) :
    ∀ (fs fs' : FS) (mode : Nat), FS.mkdirs fs base rest mode = .ok fs' →
    rest ≠ [] → fs.lookup (base ++ rest) = none →
    fs'.lookup (base ++ rest) = some (.dir mode) := by
  induction rest generalizing base with
  | nil => intro fs fs' mode h hne; exact absurd rfl hne
  | cons a rest ih =>
    intro fs fs' mode h _ hmiss
    simp only [FS.mkdirs] at h
    cases hl : fs.lookup (base ++ [a]) with
    | none =>
      rw [hl] at h
      cases rest with
      | nil =>
        simp [FS.mkdirs] at h
        rw [← h]
        simpa using FS.lookup_insert_self fs (base ++ [a]) (.dir mode)
      | cons b rest' =>
        have hmiss' : (fs.insert (base ++ [a]) (.dir mode)).lookup
            ((base ++ [a]) ++ (b :: rest')) = none := by
          rw [FS.lookup_insert_ne]
          · simpa using hmiss
          · intro he
            have : (base ++ [a]).length + (b :: rest').length = (base ++ [a]).length := by
              have := congrArg List.length he
              simpa [List.length_append] using this
            simp at this
        have := ih (base ++ [a]) _ fs' mode h (by simp) hmiss'
        simpa using this
    | some node =>
      cases node with
      | dir m =>
        rw [hl] at h
        cases rest with
        | nil =>
          rw [hmiss] at hl
          exact Option.noConfusion hl
        | cons b rest' =>
          have := ih (base ++ [a]) _ fs' mode h (by simp) (by simpa using hmiss)
          simpa using this
      | file m c => rw [hl] at h; exact Except.noConfusion h
      | symlink t => rw [hl] at h; exact Except.noConfusion h

/-! Directory preservation: no operation of the program ever turns an
existing directory into a non-directory (modes may change).  This is the
frame property behind the unconditional mode restoration of `dcopy`. -/

/-- DirsMono relates two filesystems when every directory of the first is
still a directory (with some mode) in the second. -/
def DirsMono (fs fs' : FS) : Prop :=
  ∀ p m, fs.lookup p = some (.dir m) → ∃ m', fs'.lookup p = some (.dir m')

theorem dirsMono_refl (fs : FS) : DirsMono fs fs := fun _ m h => ⟨m, h⟩

theorem dirsMono_trans {a b c : FS} (h1 : DirsMono a b) (h2 : DirsMono b c) :
    DirsMono a c := by
  intro p m h
  obtain ⟨m', hb⟩ := h1 p m h
  exact h2 p m' hb

theorem FS.dirsMono_insert_nondir (fs : FS) (p : Path) (n : Node)
    (hnd : ∀ m, fs.lookup p ≠ some (.dir m)) : DirsMono fs (fs.insert p n) := by
  intro q m hq
  by_cases hqp : q = p
  · subst hqp
    exact absurd hq (hnd m)
  · exact ⟨m, by rw [FS.lookup_insert_ne fs p q n hqp]; exact hq⟩

theorem FS.dirsMono_insert_dir (fs : FS) (p : Path) (mode : Nat) :
    DirsMono fs (fs.insert p (.dir mode)) := by
  intro q m hq
  by_cases hqp : q = p
  · subst hqp
    exact ⟨mode, FS.lookup_insert_self fs q (.dir mode)⟩
  · exact ⟨m, by rw [FS.lookup_insert_ne fs p q _ hqp]; exact hq⟩

/-- A successful `Create` binds the target to an empty file; in particular
the target is not the root and was not a directory. -/
theorem FS.create_ok_shape (fs : FS) (p : Path) (fs' : FS)
    (h : FS.create fs p = .ok fs') :
    p ≠ [] ∧ ∃ μ, fs' = fs.insert p (.file μ []) := by
  unfold FS.create at h
  by_cases hp : p = []
  · simp [hp] at h
  · rw [if_neg (by simpa using hp)] at h
    refine ⟨hp, ?_⟩
    cases hl : fs.lookup p with
    | none =>
      rw [hl] at h
      by_cases hd : fs.isDirAt p.dropLast = true
      · rw [if_pos hd] at h
        exact ⟨0o666, by injection h with h; rw [← h]⟩
      · rw [if_neg hd] at h
        exact Except.noConfusion h
    | some node =>
      cases node with
      | file m c =>
        rw [hl] at h
        exact ⟨m, by injection h with h; rw [← h]⟩
      | dir m => rw [hl] at h; exact Except.noConfusion h
      | symlink t => rw [hl] at h; exact Except.noConfusion h

theorem FS.create_dirsMono (fs : FS) (p : Path) (fs' : FS)
    (h : FS.create fs p = .ok fs') : DirsMono fs fs' := by
  unfold FS.create at h
  by_cases hp : p = []
  · simp [hp] at h
  · rw [if_neg (by simpa using hp)] at h
    cases hl : fs.lookup p with
    | none =>
      rw [hl] at h
      by_cases hd : fs.isDirAt p.dropLast = true
      · rw [if_pos hd] at h
        injection h with h
        rw [← h]
        exact FS.dirsMono_insert_nondir fs p _ (fun m hm => by rw [hl] at hm; exact Option.noConfusion hm)
      · rw [if_neg hd] at h
        exact Except.noConfusion h
    | some node =>
      cases node with
      | file m c =>
        rw [hl] at h
        injection h with h
        rw [← h]
        refine FS.dirsMono_insert_nondir fs p _ (fun m' hm => ?_)
        rw [hl] at hm
        exact Node.noConfusion (Option.some.inj hm)
      | dir m => rw [hl] at h; exact Except.noConfusion h
      | symlink t => rw [hl] at h; exact Except.noConfusion h

theorem FS.chmod_dirsMono (fs : FS) (p : Path) (mode : Nat) (fs' : FS)
    (h : FS.chmod fs p mode = .ok fs') : DirsMono fs fs' := by
  unfold FS.chmod at h
  cases hl : fs.lookup p with
  | none => rw [hl] at h; exact Except.noConfusion h
  | some node =>
    cases node with
    | file m c =>
      rw [hl] at h
      injection h with h
      rw [← h]
      refine FS.dirsMono_insert_nondir fs p _ (fun m' hm => ?_)
      rw [hl] at hm
      exact Node.noConfusion (Option.some.inj hm)
    | dir m =>
      rw [hl] at h
      injection h with h
      rw [← h]
      exact FS.dirsMono_insert_dir fs p mode
    | symlink t => rw [hl] at h; exact Except.noConfusion h

theorem FS.writeAll_dirsMono (fs : FS) (p : Path) (content : List Nat) (fs' : FS)
    (h : FS.writeAll fs p content = .ok fs') : DirsMono fs fs' := by
  unfold FS.writeAll at h
  cases hl : fs.lookup p with
  | none => rw [hl] at h; exact Except.noConfusion h
  | some node =>
    cases node with
    | file m c =>
      rw [hl] at h
      injection h with h
      rw [← h]
      refine FS.dirsMono_insert_nondir fs p _ (fun m' hm => ?_)
      rw [hl] at hm
      exact Node.noConfusion (Option.some.inj hm)
    | dir m => rw [hl] at h; exact Except.noConfusion h
    | symlink t => rw [hl] at h; exact Except.noConfusion h

theorem FS.symlink_dirsMono (fs : FS) (target p : Path) (fs' : FS)
    (h : FS.symlink fs target p = .ok fs') : DirsMono fs fs' := by
  unfold FS.symlink at h
  by_cases hp : p = []
  · simp [hp] at h
  · rw [if_neg (by simpa using hp)] at h
    cases hl : fs.lookup p with
    | some node => rw [hl] at h; exact Except.noConfusion h
    | none =>
      rw [hl] at h
      by_cases hd : fs.isDirAt p.dropLast = true
      · rw [if_pos hd] at h
        injection h with h
        rw [← h]
        exact FS.dirsMono_insert_nondir fs p _ (fun m hm => by rw [hl] at hm; exact Option.noConfusion hm)
      · rw [if_neg hd] at h
        exact Except.noConfusion h

theorem FS.mkdirAll_dirsMono (fs : FS) (p : Path) (mode : Nat) (fs' : FS)
    (h : FS.mkdirAll fs p mode = .ok fs') : DirsMono fs fs' :=
  fun q m hq => ⟨m, FS.mkdirAll_preserves fs fs' p mode h q _ hq⟩

/-- StDirs holds of a program fragment when every run preserves
directories, whether it succeeds or fails. -/
def StDirs {α : Type} (t : M α) : Prop :=
  ∀ s : St, DirsMono s.fs (Out.st (t s)).fs

theorem stDirs_of_ok {α : Type} {t : M α} (ht : StDirs t) {s : St} {a : α}
    {s1 : St} (h : t s = .ok a s1) : DirsMono s.fs s1.fs := by
  have h2 := ht s
  rw [h] at h2
  exact h2

theorem stDirs_of_err {α : Type} {t : M α} (ht : StDirs t) {s : St} {e : Err}
    {s1 : St} (h : t s = .err e s1) : DirsMono s.fs s1.fs := by
  have h2 := ht s
  rw [h] at h2
  exact h2

theorem stDirs_mLstat (p : Path) : StDirs (mLstat p) := by
  intro s
  unfold mLstat
  cases FS.lstat s.fs p <;> exact dirsMono_refl _

theorem stDirs_mReadDir (p : Path) : StDirs (mReadDir p) := by
  intro s
  unfold mReadDir
  cases FS.readDir s.fs p <;> exact dirsMono_refl _

theorem stDirs_mOpen (p : Path) : StDirs (mOpen p) := by
  intro s
  unfold mOpen
  cases FS.openRead s.fs p <;> exact dirsMono_refl _

theorem stDirs_mReadlink (p : Path) : StDirs (mReadlink p) := by
  intro s
  unfold mReadlink
  cases FS.readlink s.fs p <;> exact dirsMono_refl _

theorem stDirs_mMkdirAll (p : Path) (mode : Nat) : StDirs (mMkdirAll p mode) := by
  intro s
  unfold mMkdirAll
  cases h : FS.mkdirAll s.fs p mode with
  | ok fs2 => exact FS.mkdirAll_dirsMono s.fs p mode fs2 h
  | error e => exact dirsMono_refl _

theorem stDirs_mCreate (p : Path) : StDirs (mCreate p) := by
  intro s
  unfold mCreate
  cases h : FS.create s.fs p with
  | ok fs2 => exact FS.create_dirsMono s.fs p fs2 h
  | error e => exact dirsMono_refl _

theorem stDirs_mChmod (p : Path) (mode : Nat) : StDirs (mChmod p mode) := by
  intro s
  unfold mChmod
  cases h : FS.chmod s.fs p mode with
  | ok fs2 => exact FS.chmod_dirsMono s.fs p mode fs2 h
  | error e => exact dirsMono_refl _

theorem stDirs_mWriteAll (p : Path) (content : List Nat) : StDirs (mWriteAll p content) := by
  intro s
  unfold mWriteAll
  cases h : FS.writeAll s.fs p content with
  | ok fs2 => exact FS.writeAll_dirsMono s.fs p content fs2 h
  | error e => exact dirsMono_refl _

theorem stDirs_mSymlink (target p : Path) : StDirs (mSymlink target p) := by
  intro s
  unfold mSymlink
  cases h : FS.symlink s.fs target p with
  | ok fs2 => exact FS.symlink_dirsMono s.fs target p fs2 h
  | error e => exact dirsMono_refl _

theorem dirsMono_chmodDefer (p : Path) (mode : Nat) (r : Out Unit) :
    DirsMono (Out.st r).fs (Out.st (chmodDefer p mode r)).fs := by
  cases r with
  | ok a s =>
    show DirsMono s.fs (Out.st (match mChmod p mode s with
      | .ok _ s1 => Out.ok () s1
      | .err e s1 => Out.err e s1)).fs
    cases h : mChmod p mode s with
    | ok a2 s1 => exact stDirs_of_ok (stDirs_mChmod p mode) h
    | err e2 s1 => exact stDirs_of_err (stDirs_mChmod p mode) h
  | err e s =>
    show DirsMono s.fs (Out.st (match mChmod p mode s with
      | .ok _ s1 => Out.err e s1
      | .err _ s1 => Out.err e s1)).fs
    cases h : mChmod p mode s with
    | ok a2 s1 => exact stDirs_of_ok (stDirs_mChmod p mode) h
    | err e2 s1 => exact stDirs_of_err (stDirs_mChmod p mode) h

theorem stDirs_mbind {α β : Type} {t : M α} {k : α → M β}
    (ht : StDirs t) (hk : ∀ a, StDirs (k a)) : StDirs (mbind t k) := by
  intro s
  show DirsMono s.fs (Out.st (match t s with
    | .ok a s1 => k a s1
    | .err e s1 => Out.err e s1)).fs
  cases h : t s with
  | ok a s1 => exact dirsMono_trans (stDirs_of_ok ht h) (hk a s1)
  | err e s1 => exact stDirs_of_err ht h

theorem stDirs_fcloseDeferM {t : M Unit} (ht : StDirs t) :
    StDirs (fcloseDeferM t) :=
  ht

theorem stDirs_chmodDeferM (p : Path) (mode : Nat) {t : M Unit} (ht : StDirs t) :
    StDirs (chmodDeferM p mode t) := by
  intro s
  exact dirsMono_trans (ht s) (dirsMono_chmodDefer p mode (t s))

theorem stDirs_pureOk : StDirs (fun s => Out.ok () s) := by
  intro s
  exact dirsMono_refl _

theorem stDirs_fcopy (src dest : Path) (info : FInfo) : StDirs (fcopy src dest info) := by
  unfold fcopy
  exact stDirs_mbind (stDirs_mMkdirAll _ _) fun _ =>
    stDirs_mbind (stDirs_mCreate _) fun _ =>
    stDirs_fcloseDeferM
      (stDirs_mbind (stDirs_mChmod _ _) fun _ =>
        stDirs_mbind (stDirs_mOpen _) fun content =>
        stDirs_fcloseDeferM (stDirs_mWriteAll _ _))

theorem stDirs_lcopy (src dest : Path) : StDirs (lcopy src dest) := by
  unfold lcopy
  exact stDirs_mbind (stDirs_mReadlink _) fun target => stDirs_mSymlink target dest

theorem stDirs_dchildren (copyRec : Path → Path → List Path → FInfo → Options → M Unit)
    (hrec : ∀ a b c d e, StDirs (copyRec a b c d e))
    (srcdir destdir : Path) (toSkip : List Path) (opt : Options) :
    ∀ l : List FInfo, StDirs (dchildren copyRec srcdir destdir toSkip opt l) := by
  intro l
  induction l with
  | nil => exact stDirs_pureOk
  | cons c rest ih =>
    exact stDirs_mbind (hrec _ _ _ _ _) fun _ => ih

theorem stDirs_dcopy (copyRec : Path → Path → List Path → FInfo → Options → M Unit)
    (hrec : ∀ a b c d e, StDirs (copyRec a b c d e))
    (srcdir destdir : Path) (toSkip : List Path) (info : FInfo) (opt : Options) :
    StDirs (dcopy copyRec srcdir destdir toSkip info opt) := by
  unfold dcopy
  exact stDirs_mbind (stDirs_mMkdirAll _ _) fun _ =>
    stDirs_chmodDeferM destdir info.mode
      (stDirs_mbind (stDirs_mReadDir _) fun contents =>
        stDirs_dchildren copyRec hrec srcdir destdir toSkip opt contents)

theorem stDirs_onsymlink (copyRec : Path → Path → List Path → FInfo → Options → M Unit)
    (hrec : ∀ a b c d e, StDirs (copyRec a b c d e))
    (src dest : Path) (info : FInfo) (opt : Options) :
    StDirs (onsymlink copyRec src dest info opt) := by
  unfold onsymlink
  cases heff : effOnSymlink opt src with
  | Shallow => exact stDirs_lcopy src dest
  | Deep =>
    exact stDirs_mbind (stDirs_mReadlink _) fun orig =>
      stDirs_mbind (stDirs_mLstat orig) fun info2 => hrec orig dest [] info2 opt
  | Skip => exact stDirs_pureOk

theorem stDirs_copy :
    ∀ (fuel : Nat) (src dest : Path) (toSkip : List Path) (info : FInfo) (opt : Options),
    StDirs (copy fuel src dest toSkip info opt) := by
  intro fuel
  induction fuel with
  | zero =>
    intro src dest toSkip info opt s
    by_cases h1 : toSkip.contains src = true
    · simp only [copy, h1, if_true]
      exact dirsMono_refl _
    · simp only [copy, h1]
      simp only [Bool.not_eq_true] at h1
      simp only [h1, Bool.false_eq_true, if_false]
      exact dirsMono_refl _
  | succ n ih =>
    intro src dest toSkip info opt s
    by_cases h1 : toSkip.contains src = true
    · simp only [copy, h1, if_true]
      exact dirsMono_refl _
    · have h1' : toSkip.contains src = false := by
        simpa using h1
      obtain ⟨name, ftype, mode⟩ := info
      cases ftype with
      | symlink =>
        simp only [copy, h1', Bool.false_eq_true, if_false]
        exact stDirs_onsymlink (copy n) (fun a b c d e => ih a b c d e)
          src dest ⟨name, .symlink, mode⟩ opt s
      | dir =>
        simp only [copy, h1', Bool.false_eq_true, if_false]
        simp only [show ((⟨name, Ftype.dir, mode⟩ : FInfo).ftype == Ftype.symlink) = false from rfl,
          show ((⟨name, Ftype.dir, mode⟩ : FInfo).ftype == Ftype.dir) = true from rfl,
          Bool.false_eq_true, if_false, if_true]
        exact stDirs_dcopy (copy n) (fun a b c d e => ih a b c d e)
          src dest toSkip ⟨name, .dir, mode⟩ opt s
      | file =>
        simp only [copy, h1', Bool.false_eq_true, if_false]
        simp only [show ((⟨name, Ftype.file, mode⟩ : FInfo).ftype == Ftype.symlink) = false from rfl,
          show ((⟨name, Ftype.file, mode⟩ : FInfo).ftype == Ftype.dir) = false from rfl,
          Bool.false_eq_true, if_false]
        exact stDirs_fcopy src dest ⟨name, .file, mode⟩ s

/-- Example state used by the C2 and C3 witnesses: a source directory with
one child file. -/
def exDirSt : St := ⟨⟨[(["s"], Node.dir 0o700), (["s", "f"], Node.file 0o644 [7])]⟩, []⟩

/-- State after the destination directory has been made. -/
def exDirSt1 : St := (mMkdirAll ["d"] tmpPermissionForDirectory exDirSt).st

/-- State after the source directory has been listed. -/
def exDirSt2 : St := (mReadDir ["s"] exDirSt1).st

/-- A child runner that fails on every child. -/
def failRec : Path → Path → List Path → FInfo → Options → M Unit :=
  fun _ _ _ _ _ s => Out.err Err.outOfFuel s

/-- Running the deferred chmod finalizer on a state in which the target is
a directory leaves the target a directory with exactly the restored
mode, whether the wrapped outcome was a success or an error. -/
theorem chmodDefer_dir_mode (p : Path) (mode : Nat) (r : Out Unit) (m : Nat)
    (h : ((Out.st r).fs).lookup p = some (.dir m)) :
    ((Out.st (chmodDefer p mode r)).fs).lookup p = some (.dir mode) := by
  cases r with
  | ok a s =>
    show ((Out.st (match mChmod p mode s with
      | .ok _ s1 => Out.ok () s1
      | .err e s1 => Out.err e s1)).fs).lookup p = some (.dir mode)
    have h' : s.fs.lookup p = some (Node.dir m) := h
    have hm : mChmod p mode s = .ok () ⟨s.fs.insert p (.dir mode), s.tr ++ [.chmodOp p]⟩ := by
      unfold mChmod
      rw [show FS.chmod s.fs p mode = .ok (s.fs.insert p (.dir mode)) from by
        simp [FS.chmod, h']]
    rw [hm]
    exact FS.lookup_insert_self _ _ _
  | err e s =>
    show ((Out.st (match mChmod p mode s with
      | .ok _ s1 => Out.err e s1
      | .err _ s1 => Out.err e s1)).fs).lookup p = some (.dir mode)
    have h' : s.fs.lookup p = some (Node.dir m) := h
    have hm : mChmod p mode s = .ok () ⟨s.fs.insert p (.dir mode), s.tr ++ [.chmodOp p]⟩ := by
      unfold mChmod
      rw [show FS.chmod s.fs p mode = .ok (s.fs.insert p (.dir mode)) from by
        simp [FS.chmod, h']]
    rw [hm]
    exact FS.lookup_insert_self _ _ _

/-- C2: a destination directory is first created with the fixed mode 0755
(`tmpPermissionForDirectory`), and the unconditional finalizer restores
the recorded source mode on every exit path: whatever the children's copy
does (success or failure), the directory ends with the source directory's
permission bits. -/
theorem dcopy_restores_dir_mode :
    (∀ (fs fs' : FS) (p : Path), p ≠ [] → FS.lookup fs p = none →
      FS.mkdirAll fs p tmpPermissionForDirectory = .ok fs' →
      FS.lookup fs' p = some (.dir tmpPermissionForDirectory)) ∧
    (∀ (fuel : Nat) (srcdir destdir : Path) (toSkip : List Path) (info : FInfo)
       (opt : Options) (s : St) (fs1 : FS),
      destdir ≠ [] →
      FS.mkdirAll s.fs destdir tmpPermissionForDirectory = .ok fs1 →
      FS.lookup (Out.st (dcopy (copy fuel) srcdir destdir toSkip info opt s)).fs destdir =
        some (.dir info.mode)) := by
  constructor
  · intro fs fs' p hp hmiss hmk
    have := FS.mkdirs_creates_mode [] p fs fs' tmpPermissionForDirectory hmk hp
      (by simpa using hmiss)
    simpa using this
  · intro fuel srcdir destdir toSkip info opt s fs1 hne hmk
    have hm' : mMkdirAll destdir tmpPermissionForDirectory s =
        .ok () ⟨fs1, s.tr ++ [.mkdirAllOp destdir]⟩ := by
      unfold mMkdirAll
      rw [hmk]
    simp only [dcopy, mbind, hm', chmodDeferM]
    obtain ⟨m₀, hdir1⟩ := FS.mkdirAll_target_dir s.fs fs1 destdir _ hmk hne
    have hmono : DirsMono fs1
        (Out.st ((mbind (mReadDir srcdir) fun contents =>
          dchildren (copy fuel) srcdir destdir toSkip opt contents)
          ⟨fs1, s.tr ++ [.mkdirAllOp destdir]⟩)).fs :=
      stDirs_mbind (stDirs_mReadDir srcdir)
        (fun contents => stDirs_dchildren (copy fuel)
          (fun a b c d e => stDirs_copy fuel a b c d e)
          srcdir destdir toSkip opt contents)
        ⟨fs1, s.tr ++ [.mkdirAllOp destdir]⟩
    obtain ⟨m₂, hdir2⟩ := hmono destdir m₀ hdir1
    exact chmodDefer_dir_mode destdir info.mode _ m₂ hdir2

/-- Filesystem after the destination directory of the C2 witness has been
made. -/
def exMkFs : FS :=
  match FS.mkdirAll exDirSt.fs ["d"] tmpPermissionForDirectory with
  | .ok fs => fs
  | .error _ => ⟨[]⟩

/-- Witness for C2: the copied directory (source mode 0700) is created
with mode 0755 and ends with mode 0700. -/
theorem dcopy_restores_dir_mode_w :
    FS.lookup (Out.st (dcopy (copy 1) ["s"] ["d"] [] ⟨"s", Ftype.dir, 0o700⟩
      DefaultOptions exDirSt)).fs ["d"] = some (.dir 0o700) ∧
    FS.lookup exMkFs ["d"] = some (.dir tmpPermissionForDirectory) := by
  constructor
  · exact dcopy_restores_dir_mode.2 1 ["s"] ["d"] [] ⟨"s", Ftype.dir, 0o700⟩
      DefaultOptions exDirSt exMkFs (by decide) (by decide)
  · exact dcopy_restores_dir_mode.1 exDirSt.fs exMkFs ["d"] (by decide) (by decide)
      (by decide)

/-! Read-trace framework: which paths a run reads (stats, lists, opens, or
readlinks).  Used to settle the claim that skip-set members are never
read. -/

/-- TraceOkFrom p s s' holds when every operation in the trace of s' was
already in the trace of s, or is not a read of the path p. -/
def TraceOkFrom (p : Path) (s s' : St) : Prop :=
  ∀ op, op ∈ s'.tr → op ∈ s.tr ∨ op.readPath ≠ some p

theorem traceOkFrom_refl (p : Path) (s : St) : TraceOkFrom p s s :=
  fun _ h => Or.inl h

theorem traceOkFrom_trans {p : Path} {s1 s2 s3 : St}
    (h1 : TraceOkFrom p s1 s2) (h2 : TraceOkFrom p s2 s3) : TraceOkFrom p s1 s3 := by
  intro op h
  cases h2 op h with
  | inl h => exact h1 op h
  | inr h => exact Or.inr h

/-- AvoidsRead p t holds when no run of t adds a read of p to the trace. -/
def AvoidsRead {α : Type} (p : Path) (t : M α) : Prop :=
  ∀ s : St, TraceOkFrom p s (Out.st (t s))

theorem avoidsRead_of_ok {α : Type} {p : Path} {t : M α} (ht : AvoidsRead p t)
    {s : St} {a : α} {s1 : St} (h : t s = .ok a s1) : TraceOkFrom p s s1 := by
  have h2 := ht s
  rw [h] at h2
  exact h2

theorem traceOk_append_one (p : Path) (s : St) (fs2 : FS) (op : SysOp)
    (hop : op.readPath ≠ some p) : TraceOkFrom p s ⟨fs2, s.tr ++ [op]⟩ := by
  intro o ho
  simp only [List.mem_append, List.mem_singleton] at ho
  cases ho with
  | inl h => exact Or.inl h
  | inr h => subst h; exact Or.inr hop

theorem avoidsRead_mLstat (p q : Path) (h : q ≠ p) : AvoidsRead p (mLstat q) := by
  intro s
  unfold mLstat
  cases FS.lstat s.fs q <;>
    exact traceOk_append_one p s _ _ (by simp [SysOp.readPath]; exact h)

theorem avoidsRead_mReadDir (p q : Path) (h : q ≠ p) : AvoidsRead p (mReadDir q) := by
  intro s
  unfold mReadDir
  cases FS.readDir s.fs q <;>
    exact traceOk_append_one p s _ _ (by simp [SysOp.readPath]; exact h)

theorem avoidsRead_mOpen (p q : Path) (h : q ≠ p) : AvoidsRead p (mOpen q) := by
  intro s
  unfold mOpen
  cases FS.openRead s.fs q <;>
    exact traceOk_append_one p s _ _ (by simp [SysOp.readPath]; exact h)

theorem avoidsRead_mReadlink (p q : Path) (h : q ≠ p) : AvoidsRead p (mReadlink q) := by
  intro s
  unfold mReadlink
  cases FS.readlink s.fs q <;>
    exact traceOk_append_one p s _ _ (by simp [SysOp.readPath]; exact h)

theorem avoidsRead_mMkdirAll (p q : Path) (mode : Nat) : AvoidsRead p (mMkdirAll q mode) := by
  intro s
  unfold mMkdirAll
  cases FS.mkdirAll s.fs q mode <;>
    exact traceOk_append_one p s _ _ (by simp [SysOp.readPath])

theorem avoidsRead_mCreate (p q : Path) : AvoidsRead p (mCreate q) := by
  intro s
  unfold mCreate
  cases FS.create s.fs q <;>
    exact traceOk_append_one p s _ _ (by simp [SysOp.readPath])

theorem avoidsRead_mChmod (p q : Path) (mode : Nat) : AvoidsRead p (mChmod q mode) := by
  intro s
  unfold mChmod
  cases FS.chmod s.fs q mode <;>
    exact traceOk_append_one p s _ _ (by simp [SysOp.readPath])

theorem avoidsRead_mWriteAll (p q : Path) (content : List Nat) :
    AvoidsRead p (mWriteAll q content) := by
  intro s
  unfold mWriteAll
  cases FS.writeAll s.fs q content <;>
    exact traceOk_append_one p s _ _ (by simp [SysOp.readPath])

theorem avoidsRead_mSymlink (p target q : Path) : AvoidsRead p (mSymlink target q) := by
  intro s
  unfold mSymlink
  cases FS.symlink s.fs target q <;>
    exact traceOk_append_one p s _ _ (by simp [SysOp.readPath])

theorem avoidsRead_mbind {α β : Type} {p : Path} {t : M α} {k : α → M β}
    (ht : AvoidsRead p t) (hk : ∀ a, AvoidsRead p (k a)) : AvoidsRead p (mbind t k) := by
  intro s
  show TraceOkFrom p s (Out.st (match t s with
    | .ok a s1 => k a s1
    | .err e s1 => Out.err e s1))
  cases h : t s with
  | ok a s1 => exact traceOkFrom_trans (avoidsRead_of_ok ht h) (hk a s1)
  | err e s1 =>
    have h2 := ht s
    rw [h] at h2
    exact h2

theorem avoidsRead_pureOk (p : Path) : AvoidsRead p (fun s => Out.ok () s) := by
  intro s
  exact traceOkFrom_refl p s

theorem avoidsRead_fcloseDeferM {p : Path} {t : M Unit} (ht : AvoidsRead p t) :
    AvoidsRead p (fcloseDeferM t) :=
  ht

theorem traceOk_chmodDefer (p q : Path) (mode : Nat) (r : Out Unit) :
    TraceOkFrom p (Out.st r) (Out.st (chmodDefer q mode r)) := by
  cases r with
  | ok a s =>
    show TraceOkFrom p s (Out.st (match mChmod q mode s with
      | .ok _ s1 => Out.ok () s1
      | .err e s1 => Out.err e s1))
    cases h : mChmod q mode s with
    | ok a2 s1 =>
      have h2 := avoidsRead_mChmod p q mode s
      rw [h] at h2
      exact h2
    | err e2 s1 =>
      have h2 := avoidsRead_mChmod p q mode s
      rw [h] at h2
      exact h2
  | err e s =>
    show TraceOkFrom p s (Out.st (match mChmod q mode s with
      | .ok _ s1 => Out.err e s1
      | .err _ s1 => Out.err e s1))
    cases h : mChmod q mode s with
    | ok a2 s1 =>
      have h2 := avoidsRead_mChmod p q mode s
      rw [h] at h2
      exact h2
    | err e2 s1 =>
      have h2 := avoidsRead_mChmod p q mode s
      rw [h] at h2
      exact h2

theorem avoidsRead_chmodDeferM (p q : Path) (mode : Nat) {t : M Unit}
    (ht : AvoidsRead p t) : AvoidsRead p (chmodDeferM q mode t) := by
  intro s
  exact traceOkFrom_trans (ht s) (traceOk_chmodDefer p q mode (t s))

theorem avoidsRead_fcopy (p src dest : Path) (info : FInfo) (h : src ≠ p) :
    AvoidsRead p (fcopy src dest info) := by
  unfold fcopy
  exact avoidsRead_mbind (avoidsRead_mMkdirAll p _ _) fun _ =>
    avoidsRead_mbind (avoidsRead_mCreate p _) fun _ =>
    avoidsRead_fcloseDeferM
      (avoidsRead_mbind (avoidsRead_mChmod p _ _) fun _ =>
        avoidsRead_mbind (avoidsRead_mOpen p src h) fun content =>
        avoidsRead_fcloseDeferM (avoidsRead_mWriteAll p _ _))

theorem avoidsRead_lcopy (p src dest : Path) (h : src ≠ p) :
    AvoidsRead p (lcopy src dest) := by
  unfold lcopy
  exact avoidsRead_mbind (avoidsRead_mReadlink p src h) fun target =>
    avoidsRead_mSymlink p target dest

theorem avoidsRead_dchildren (p : Path)
    (copyRec : Path → Path → List Path → FInfo → Options → M Unit)
    (srcdir destdir : Path) (toSkip : List Path) (opt : Options)
    (hrec : ∀ a b (c : FInfo), AvoidsRead p (copyRec a b toSkip c opt)) :
    ∀ l : List FInfo, AvoidsRead p (dchildren copyRec srcdir destdir toSkip opt l) := by
  intro l
  induction l with
  | nil => exact avoidsRead_pureOk p
  | cons c rest ih =>
    exact avoidsRead_mbind (hrec _ _ _) fun _ => ih

theorem avoidsRead_dcopy (p : Path)
    (copyRec : Path → Path → List Path → FInfo → Options → M Unit)
    (srcdir destdir : Path) (toSkip : List Path) (info : FInfo) (opt : Options)
    (hsrc : srcdir ≠ p)
    (hrec : ∀ a b (c : FInfo), AvoidsRead p (copyRec a b toSkip c opt)) :
    AvoidsRead p (dcopy copyRec srcdir destdir toSkip info opt) := by
  unfold dcopy
  exact avoidsRead_mbind (avoidsRead_mMkdirAll p _ _) fun _ =>
    avoidsRead_chmodDeferM p destdir info.mode
      (avoidsRead_mbind (avoidsRead_mReadDir p srcdir hsrc) fun contents =>
        avoidsRead_dchildren p copyRec srcdir destdir toSkip opt hrec contents)

theorem avoidsRead_onsymlink (p : Path)
    (copyRec : Path → Path → List Path → FInfo → Options → M Unit)
    (src dest : Path) (info : FInfo) (opt : Options)
    (hsrc : src ≠ p) (hnd : effOnSymlink opt src ≠ .Deep) :
    AvoidsRead p (onsymlink copyRec src dest info opt) := by
  unfold onsymlink
  cases heff : effOnSymlink opt src with
  | Shallow => exact avoidsRead_lcopy p src dest hsrc
  | Deep => exact absurd heff hnd
  | Skip => exact avoidsRead_pureOk p

theorem avoidsRead_copy (p : Path) (toSkip : List Path) (opt : Options)
    (hmem : p ∈ toSkip) (hnd : ∀ q, effOnSymlink opt q ≠ .Deep) :
    ∀ (fuel : Nat) (src dest : Path) (info : FInfo),
    AvoidsRead p (copy fuel src dest toSkip info opt) := by
  intro fuel
  induction fuel with
  | zero =>
    intro src dest info s
    by_cases h1 : toSkip.contains src = true
    · simp only [copy, h1, if_true]
      exact traceOkFrom_refl p s
    · simp only [Bool.not_eq_true] at h1
      simp only [copy, h1, Bool.false_eq_true, if_false]
      exact traceOkFrom_refl p s
  | succ n ih =>
    intro src dest info s
    by_cases h1 : toSkip.contains src = true
    · simp only [copy, h1, if_true]
      exact traceOkFrom_refl p s
    · have h1' : toSkip.contains src = false := by simpa using h1
      have hsrc : src ≠ p := by
        intro he
        subst he
        have : src ∈ toSkip := hmem
        rw [← List.elem_iff] at this
        rw [show toSkip.elem src = toSkip.contains src from rfl] at this
        rw [h1'] at this
        exact Bool.noConfusion this
      obtain ⟨name, ftype, mode⟩ := info
      cases ftype with
      | symlink =>
        simp only [copy, h1', Bool.false_eq_true, if_false]
        exact avoidsRead_onsymlink p (copy n) src dest ⟨name, .symlink, mode⟩ opt
          hsrc (hnd src) s
      | dir =>
        simp only [copy, h1', Bool.false_eq_true, if_false]
        simp only [show ((⟨name, Ftype.dir, mode⟩ : FInfo).ftype == Ftype.symlink) = false from rfl,
          show ((⟨name, Ftype.dir, mode⟩ : FInfo).ftype == Ftype.dir) = true from rfl,
          Bool.false_eq_true, if_false, if_true]
        exact avoidsRead_dcopy p (copy n) src dest toSkip ⟨name, .dir, mode⟩ opt hsrc
          (fun a b c => ih a b c) s
      | file =>
        simp only [copy, h1', Bool.false_eq_true, if_false]
        simp only [show ((⟨name, Ftype.file, mode⟩ : FInfo).ftype == Ftype.symlink) = false from rfl,
          show ((⟨name, Ftype.file, mode⟩ : FInfo).ftype == Ftype.dir) = false from rfl,
          Bool.false_eq_true, if_false]
        exact avoidsRead_fcopy p src dest ⟨name, .file, mode⟩ hsrc s

/-! Write-footprint framework: every write of a dispatcher call lands on a
path comparable (by the prefix order) to the call's destination, and a
skip-set member's corresponding destination location is never written. -/

theorem prefix_snoc_cases {q l : Path} {n : String} (h : q <+: l ++ [n]) :
    q <+: l ∨ q = l ++ [n] := by
  rcases Nat.lt_or_ge q.length (l ++ [n]).length with hlt | hge
  · left
    refine List.prefix_of_prefix_length_le h (List.prefix_append l [n]) ?_
    simp only [List.length_append, List.length_singleton] at hlt
    omega
  · right
    exact h.eq_of_length (Nat.le_antisymm h.length_le hge)

theorem prefix_cancel_left : ∀ (a u v : Path), (a ++ u) <+: (a ++ v) → u <+: v := by
  intro a
  induction a with
  | nil => intro u v h; simpa using h
  | cons x a ih =>
    intro u v h
    rw [List.cons_append, List.cons_append, List.cons_prefix_cons] at h
    exact ih u v h.2

theorem not_prefix_of_longer (cd : Path) (x : List String) (hx : x ≠ []) :
    ¬ (cd ++ x) <+: cd := by
  intro h
  have h1 := h.length_le
  have h2 : 0 < x.length := List.length_pos.2 hx
  simp only [List.length_append] at h1
  omega

theorem dropLast_prefix_self (l : Path) : l.dropLast <+: l := by
  rw [List.dropLast_eq_take]
  exact List.take_prefix _ _

theorem FS.chmod_ok_shape (fs : FS) (p : Path) (mode : Nat) (fs' : FS)
    (h : FS.chmod fs p mode = .ok fs') : ∃ node, fs' = fs.insert p node := by
  unfold FS.chmod at h
  cases hl : fs.lookup p with
  | none => rw [hl] at h; exact Except.noConfusion h
  | some node =>
    cases node with
    | file m c => rw [hl] at h; injection h with h; exact ⟨_, h.symm⟩
    | dir m => rw [hl] at h; injection h with h; exact ⟨_, h.symm⟩
    | symlink t => rw [hl] at h; exact Except.noConfusion h

theorem FS.writeAll_ok_shape (fs : FS) (p : Path) (content : List Nat) (fs' : FS)
    (h : FS.writeAll fs p content = .ok fs') : ∃ node, fs' = fs.insert p node := by
  unfold FS.writeAll at h
  cases hl : fs.lookup p with
  | none => rw [hl] at h; exact Except.noConfusion h
  | some node =>
    cases node with
    | file m c => rw [hl] at h; injection h with h; exact ⟨_, h.symm⟩
    | dir m => rw [hl] at h; exact Except.noConfusion h
    | symlink t => rw [hl] at h; exact Except.noConfusion h

theorem FS.symlink_ok_shape (fs : FS) (target p : Path) (fs' : FS)
    (h : FS.symlink fs target p = .ok fs') : fs' = fs.insert p (.symlink target) := by
  unfold FS.symlink at h
  by_cases hp : p = []
  · simp [hp] at h
  · rw [if_neg (by simpa using hp)] at h
    cases hl : fs.lookup p with
    | some node => rw [hl] at h; exact Except.noConfusion h
    | none =>
      rw [hl] at h
      by_cases hd : fs.isDirAt p.dropLast = true
      · rw [if_pos hd] at h
        injection h with h
        exact h.symm
      · rw [if_neg hd] at h
        exact Except.noConfusion h

/-- A `mkdirs` walk changes nothing outside the prefixes of its target. -/
theorem FS.mkdirs_outside (base : Path) (rest : List String) :
    ∀ (fs fs' : FS) (mode : Nat), FS.mkdirs fs base rest mode = .ok fs' →
    ∀ q, ¬ q <+: (base ++ rest) → fs'.lookup q = fs.lookup q := by
  induction rest generalizing base with
  | nil =>
    intro fs fs' mode h q _
    simp only [FS.mkdirs] at h
    injection h with h2
    rw [← h2]
  | cons a rest ih =>
    intro fs fs' mode h q hq
    have e : base ++ a :: rest = (base ++ [a]) ++ rest := by simp
    rw [e] at hq
    have hqa : q ≠ base ++ [a] := by
      intro he
      exact hq (he ▸ List.prefix_append (base ++ [a]) rest)
    simp only [FS.mkdirs] at h
    cases hl : fs.lookup (base ++ [a]) with
    | none =>
      rw [hl] at h
      rw [ih (base ++ [a]) _ fs' mode h q hq]
      exact FS.lookup_insert_ne fs (base ++ [a]) q _ hqa
    | some node =>
      cases node with
      | dir m =>
        rw [hl] at h
        exact ih (base ++ [a]) fs fs' mode h q hq
      | file m c => rw [hl] at h; exact Except.noConfusion h
      | symlink t => rw [hl] at h; exact Except.noConfusion h

/-- NoChangeAt q t holds when no run of t changes the binding at q. -/
def NoChangeAt {α : Type} (q : Path) (t : M α) : Prop :=
  ∀ s : St, ((Out.st (t s)).fs).lookup q = s.fs.lookup q

theorem noChangeAt_of_ok {α : Type} {q : Path} {t : M α} (ht : NoChangeAt q t)
    {s : St} {a : α} {s1 : St} (h : t s = .ok a s1) :
    s1.fs.lookup q = s.fs.lookup q := by
  have h2 := ht s
  rw [h] at h2
  exact h2

theorem noChangeAt_mLstat (q p : Path) : NoChangeAt q (mLstat p) := by
  intro s
  unfold mLstat
  cases FS.lstat s.fs p <;> rfl

theorem noChangeAt_mReadDir (q p : Path) : NoChangeAt q (mReadDir p) := by
  intro s
  unfold mReadDir
  cases FS.readDir s.fs p <;> rfl

theorem noChangeAt_mOpen (q p : Path) : NoChangeAt q (mOpen p) := by
  intro s
  unfold mOpen
  cases FS.openRead s.fs p <;> rfl

theorem noChangeAt_mReadlink (q p : Path) : NoChangeAt q (mReadlink p) := by
  intro s
  unfold mReadlink
  cases FS.readlink s.fs p <;> rfl

theorem noChangeAt_mMkdirAll (q p : Path) (mode : Nat) (h : ¬ q <+: p) :
    NoChangeAt q (mMkdirAll p mode) := by
  intro s
  unfold mMkdirAll
  cases hc : FS.mkdirAll s.fs p mode with
  | ok fs2 =>
    exact FS.mkdirs_outside [] p s.fs fs2 mode hc q (by simpa using h)
  | error e => rfl

theorem noChangeAt_mCreate (q p : Path) (h : q ≠ p) : NoChangeAt q (mCreate p) := by
  intro s
  unfold mCreate
  cases hc : FS.create s.fs p with
  | ok fs2 =>
    obtain ⟨_, μ, hsh⟩ := FS.create_ok_shape s.fs p fs2 hc
    rw [hsh]
    exact FS.lookup_insert_ne s.fs p q _ h
  | error e => rfl

theorem noChangeAt_mChmod (q p : Path) (mode : Nat) (h : q ≠ p) :
    NoChangeAt q (mChmod p mode) := by
  intro s
  unfold mChmod
  cases hc : FS.chmod s.fs p mode with
  | ok fs2 =>
    obtain ⟨node, hsh⟩ := FS.chmod_ok_shape s.fs p mode fs2 hc
    rw [hsh]
    exact FS.lookup_insert_ne s.fs p q _ h
  | error e => rfl

theorem noChangeAt_mWriteAll (q p : Path) (content : List Nat) (h : q ≠ p) :
    NoChangeAt q (mWriteAll p content) := by
  intro s
  unfold mWriteAll
  cases hc : FS.writeAll s.fs p content with
  | ok fs2 =>
    obtain ⟨node, hsh⟩ := FS.writeAll_ok_shape s.fs p content fs2 hc
    rw [hsh]
    exact FS.lookup_insert_ne s.fs p q _ h
  | error e => rfl

theorem noChangeAt_mSymlink (q target p : Path) (h : q ≠ p) :
    NoChangeAt q (mSymlink target p) := by
  intro s
  unfold mSymlink
  cases hc : FS.symlink s.fs target p with
  | ok fs2 =>
    rw [FS.symlink_ok_shape s.fs target p fs2 hc]
    exact FS.lookup_insert_ne s.fs p q _ h
  | error e => rfl

theorem noChangeAt_mbind {α β : Type} {q : Path} {t : M α} {k : α → M β}
    (ht : NoChangeAt q t) (hk : ∀ a, NoChangeAt q (k a)) :
    NoChangeAt q (mbind t k) := by
  intro s
  show ((Out.st (match t s with
    | .ok a s1 => k a s1
    | .err e s1 => Out.err e s1)).fs).lookup q = s.fs.lookup q
  cases h : t s with
  | ok a s1 =>
    rw [hk a s1]
    exact noChangeAt_of_ok ht h
  | err e s1 =>
    have h2 := ht s
    rw [h] at h2
    exact h2

theorem noChangeAt_pureOk (q : Path) : NoChangeAt q (fun s => Out.ok () s) :=
  fun _ => rfl

theorem noChangeAt_fcloseDeferM {q : Path} {t : M Unit} (ht : NoChangeAt q t) :
    NoChangeAt q (fcloseDeferM t) :=
  ht

theorem noChangeAt_chmodDeferM (q p : Path) (mode : Nat) {t : M Unit}
    (hq : q ≠ p) (ht : NoChangeAt q t) : NoChangeAt q (chmodDeferM p mode t) := by
  intro s
  show ((Out.st (chmodDefer p mode (t s))).fs).lookup q = s.fs.lookup q
  have hbody := ht s
  have step : ∀ r : Out Unit, ((Out.st (chmodDefer p mode r)).fs).lookup q =
      ((Out.st r).fs).lookup q := by
    intro r
    cases r with
    | ok a s2 =>
      show ((Out.st (match mChmod p mode s2 with
        | .ok _ s1 => Out.ok () s1
        | .err e s1 => Out.err e s1)).fs).lookup q = s2.fs.lookup q
      cases h : mChmod p mode s2 with
      | ok a2 s1 => exact noChangeAt_of_ok (noChangeAt_mChmod q p mode hq) h
      | err e2 s1 =>
        have h2 := noChangeAt_mChmod q p mode hq s2
        rw [h] at h2
        exact h2
    | err e s2 =>
      show ((Out.st (match mChmod p mode s2 with
        | .ok _ s1 => Out.err e s1
        | .err _ s1 => Out.err e s1)).fs).lookup q = s2.fs.lookup q
      cases h : mChmod p mode s2 with
      | ok a2 s1 => exact noChangeAt_of_ok (noChangeAt_mChmod q p mode hq) h
      | err e2 s1 =>
        have h2 := noChangeAt_mChmod q p mode hq s2
        rw [h] at h2
        exact h2
  rw [step (t s)]
  exact hbody

theorem noChangeAt_fcopy (q cs cd : Path) (info : FInfo) (h : ¬ q <+: cd) :
    NoChangeAt q (fcopy cs cd info) := by
  have hne : q ≠ cd := by
    intro he
    exact h (he ▸ List.prefix_refl cd)
  have hdl : ¬ q <+: cd.dropLast := by
    intro hpre
    exact h (hpre.trans (dropLast_prefix_self cd))
  unfold fcopy
  exact noChangeAt_mbind (noChangeAt_mMkdirAll q _ _ hdl) fun _ =>
    noChangeAt_mbind (noChangeAt_mCreate q _ hne) fun _ =>
    noChangeAt_fcloseDeferM
      (noChangeAt_mbind (noChangeAt_mChmod q _ _ hne) fun _ =>
        noChangeAt_mbind (noChangeAt_mOpen q _) fun content =>
        noChangeAt_fcloseDeferM (noChangeAt_mWriteAll q _ _ hne))

theorem noChangeAt_lcopy (q cs cd : Path) (h : q ≠ cd) :
    NoChangeAt q (lcopy cs cd) := by
  unfold lcopy
  exact noChangeAt_mbind (noChangeAt_mReadlink q _) fun target =>
    noChangeAt_mSymlink q target cd h

theorem noChangeAt_dchildren {q : Path}
    (copyRec : Path → Path → List Path → FInfo → Options → M Unit)
    (srcdir destdir : Path) (toSkip : List Path) (opt : Options) :
    ∀ l : List FInfo,
    (∀ c ∈ l, NoChangeAt q (copyRec (srcdir ++ [c.name]) (destdir ++ [c.name]) toSkip c opt)) →
    NoChangeAt q (dchildren copyRec srcdir destdir toSkip opt l) := by
  intro l
  induction l with
  | nil => intro _; exact noChangeAt_pureOk q
  | cons c rest ih =>
    intro hc
    exact noChangeAt_mbind (hc c (by simp)) fun _ =>
      ih (fun c' hc' => hc c' (by simp [hc']))

theorem noChangeAt_dcopy {q : Path}
    (copyRec : Path → Path → List Path → FInfo → Options → M Unit)
    (srcdir destdir : Path) (toSkip : List Path) (info : FInfo) (opt : Options)
    (hmk : ¬ q <+: destdir)
    (hchild : ∀ c, NoChangeAt q (copyRec (srcdir ++ [c.name]) (destdir ++ [c.name]) toSkip c opt)) :
    NoChangeAt q (dcopy copyRec srcdir destdir toSkip info opt) := by
  have hne : q ≠ destdir := by
    intro he
    exact hmk (he ▸ List.prefix_refl destdir)
  unfold dcopy
  exact noChangeAt_mbind (noChangeAt_mMkdirAll q _ _ hmk) fun _ =>
    noChangeAt_chmodDeferM q destdir info.mode hne
      (noChangeAt_mbind (noChangeAt_mReadDir q _) fun contents =>
        noChangeAt_dchildren copyRec srcdir destdir toSkip opt contents
          (fun c _ => hchild c))

/-- Frame property: a dispatcher call writes only at paths comparable to
its destination (a prefix of it, or extending it); any other path's
binding is untouched, whatever the policy and outcome. -/
theorem copy_frame :
    ∀ (fuel : Nat) (cs cd : Path) (toSkip : List Path) (info : FInfo)
      (opt : Options) (q : Path), ¬ q <+: cd → ¬ cd <+: q →
    NoChangeAt q (copy fuel cs cd toSkip info opt) := by
  intro fuel
  induction fuel with
  | zero =>
    intro cs cd toSkip info opt q _ _ s
    by_cases h1 : toSkip.contains cs = true
    · simp only [copy, h1, if_true]
      rfl
    · have h1' : toSkip.contains cs = false := by simpa using h1
      simp only [copy, h1', Bool.false_eq_true, if_false]
      rfl
  | succ n ih =>
    intro cs cd toSkip info opt q hq1 hq2
    have hchild : ∀ c : FInfo, NoChangeAt q (copy n (cs ++ [c.name]) (cd ++ [c.name]) toSkip c opt) := by
      intro c
      refine ih (cs ++ [c.name]) (cd ++ [c.name]) toSkip c opt q ?_ ?_
      · intro hpre
        cases prefix_snoc_cases hpre with
        | inl h => exact hq1 h
        | inr h => exact hq2 (h ▸ List.prefix_append cd [c.name])
      · intro hpre
        exact hq2 ((List.prefix_append cd [c.name]).trans hpre)
    intro s
    by_cases h1 : toSkip.contains cs = true
    · simp only [copy, h1, if_true]
      rfl
    · have h1' : toSkip.contains cs = false := by simpa using h1
      have hne : q ≠ cd := by
        intro he
        exact hq1 (he ▸ List.prefix_refl cd)
      obtain ⟨name, ftype, mode⟩ := info
      cases ftype with
      | symlink =>
        simp only [copy, h1', Bool.false_eq_true, if_false]
        revert s
        show NoChangeAt q (onsymlink (copy n) cs cd ⟨name, .symlink, mode⟩ opt)
        unfold onsymlink
        cases heff : effOnSymlink opt cs with
        | Shallow => exact noChangeAt_lcopy q cs cd hne
        | Deep =>
          exact noChangeAt_mbind (noChangeAt_mReadlink q _) fun orig =>
            noChangeAt_mbind (noChangeAt_mLstat q _) fun info2 =>
            ih orig cd [] info2 opt q hq1 hq2
        | Skip => exact noChangeAt_pureOk q
      | dir =>
        simp only [copy, h1', Bool.false_eq_true, if_false]
        simp only [show ((⟨name, Ftype.dir, mode⟩ : FInfo).ftype == Ftype.symlink) = false from rfl,
          show ((⟨name, Ftype.dir, mode⟩ : FInfo).ftype == Ftype.dir) = true from rfl,
          Bool.false_eq_true, if_false, if_true]
        exact noChangeAt_dcopy (copy n) cs cd toSkip ⟨name, .dir, mode⟩ opt hq1
          (fun c => hchild c) s
      | file =>
        simp only [copy, h1', Bool.false_eq_true, if_false]
        simp only [show ((⟨name, Ftype.file, mode⟩ : FInfo).ftype == Ftype.symlink) = false from rfl,
          show ((⟨name, Ftype.file, mode⟩ : FInfo).ftype == Ftype.dir) = false from rfl,
          Bool.false_eq_true, if_false]
        exact noChangeAt_fcopy q cs cd ⟨name, .file, mode⟩ hq1 s

/-- A skip-set member's corresponding destination location (the call's
destination followed by the member's path relative to the call's source)
is never written during the traversal, under a policy that never yields
Deep. -/
theorem copy_skip_dest :
    ∀ (fuel : Nat) (cs cd : Path) (toSkip : List Path) (info : FInfo)
      (opt : Options) (r : List String),
      (cs ++ r) ∈ toSkip → (∀ x, effOnSymlink opt x ≠ .Deep) →
    NoChangeAt (cd ++ r) (copy fuel cs cd toSkip info opt) := by
  intro fuel
  induction fuel with
  | zero =>
    intro cs cd toSkip info opt r _ _ s
    by_cases h1 : toSkip.contains cs = true
    · simp only [copy, h1, if_true]
      rfl
    · have h1' : toSkip.contains cs = false := by simpa using h1
      simp only [copy, h1', Bool.false_eq_true, if_false]
      rfl
  | succ n ih =>
    intro cs cd toSkip info opt r hmem hnd
    intro s
    by_cases h1 : toSkip.contains cs = true
    · simp only [copy, h1, if_true]
      rfl
    · have h1' : toSkip.contains cs = false := by simpa using h1
      have hcsnot : cs ∉ toSkip := by
        intro hin
        have : toSkip.contains cs = true := by
          rw [show toSkip.contains cs = toSkip.elem cs from rfl]
          exact List.elem_iff.2 hin
        rw [h1'] at this
        exact Bool.noConfusion this
      cases r with
      | nil =>
        rw [List.append_nil] at hmem
        exact absurd hmem hcsnot
      | cons nm r' =>
        have hq1 : ¬ (cd ++ nm :: r') <+: cd :=
          not_prefix_of_longer cd (nm :: r') (by simp)
        have hne : cd ++ nm :: r' ≠ cd := by
          intro he
          refine hq1 ?_
          rw [he]
        have hchild : ∀ c : FInfo,
            NoChangeAt (cd ++ nm :: r')
              (copy n (cs ++ [c.name]) (cd ++ [c.name]) toSkip c opt) := by
          intro c
          by_cases hcn : c.name = nm
          · subst hcn
            have hmem' : (cs ++ [c.name]) ++ r' ∈ toSkip := by
              rw [List.append_assoc]
              simpa using hmem
            have := ih (cs ++ [c.name]) (cd ++ [c.name]) toSkip c opt r' hmem' hnd
            rw [List.append_assoc] at this
            simpa using this
          · refine copy_frame n (cs ++ [c.name]) (cd ++ [c.name]) toSkip c opt _ ?_ ?_
            · intro hpre
              have := prefix_cancel_left cd (nm :: r') [c.name] hpre
              rw [List.cons_prefix_cons] at this
              exact hcn this.1.symm
            · intro hpre
              have := prefix_cancel_left cd [c.name] (nm :: r') hpre
              rw [List.cons_prefix_cons] at this
              exact hcn this.1
        obtain ⟨name, ftype, mode⟩ := info
        cases ftype with
        | symlink =>
          simp only [copy, h1', Bool.false_eq_true, if_false]
          revert s
          show NoChangeAt (cd ++ nm :: r')
            (onsymlink (copy n) cs cd ⟨name, .symlink, mode⟩ opt)
          unfold onsymlink
          cases heff : effOnSymlink opt cs with
          | Shallow => exact noChangeAt_lcopy _ cs cd hne
          | Deep => exact absurd heff (hnd cs)
          | Skip => exact noChangeAt_pureOk _
        | dir =>
          simp only [copy, h1', Bool.false_eq_true, if_false]
          simp only [show ((⟨name, Ftype.dir, mode⟩ : FInfo).ftype == Ftype.symlink) = false from rfl,
            show ((⟨name, Ftype.dir, mode⟩ : FInfo).ftype == Ftype.dir) = true from rfl,
            Bool.false_eq_true, if_false, if_true]
          exact noChangeAt_dcopy (copy n) cs cd toSkip ⟨name, .dir, mode⟩ opt hq1
            (fun c => hchild c) s
        | file =>
          simp only [copy, h1', Bool.false_eq_true, if_false]
          simp only [show ((⟨name, Ftype.file, mode⟩ : FInfo).ftype == Ftype.symlink) = false from rfl,
            show ((⟨name, Ftype.file, mode⟩ : FInfo).ftype == Ftype.dir) = false from rfl,
            Bool.false_eq_true, if_false]
          exact noChangeAt_fcopy _ cs cd ⟨name, .file, mode⟩ hq1 s

/-- Example state for the C7 counterexample: a symlink `l` to a file `t`. -/
def exDeepSt : St := ⟨⟨[(["l"], Node.symlink ["t"]), (["t"], Node.file 0o600 [9])]⟩, []⟩

/-- Counterexample to C7 as stated: with skip set `{t}` and a Deep policy,
copying the symlink `l` (whose target is `t`) opens and reads the skipped
path `t` — a read operation on `t` appears in the trace — and writes its
content to the destination: the skip set is not consulted inside a Deep
dereference. -/
theorem deep_deref_reads_skipped :
    (["t"] ∈ [(["t"] : Path)]) ∧
    (SysOp.openReadOp ["t"]) ∈
      (Out.st (CopyButSkipSome 3 ["l"] ["d"] [["t"]]
        [⟨some fun _ => SymlinkAction.Deep⟩] exDeepSt)).tr ∧
    (SysOp.openReadOp ["t"]).readPath = some ["t"] ∧
    FS.lookup (Out.st (CopyButSkipSome 3 ["l"] ["d"] [["t"]]
        [⟨some fun _ => SymlinkAction.Deep⟩] exDeepSt)).fs ["d"] =
      some (.file 0o600 [9]) := by
  refine ⟨by decide, by decide, by decide, by decide⟩

/-- C7 (amended): for a path p in the skip set, under an effective policy
that never yields Deep, the traversal never reads p — every operation in
the final trace either predates the call or is not a read of p — and the
destination location corresponding to a skip-set member (the call's
destination followed by the member's source-relative path) is never
written: its binding is left exactly as it was. -/
theorem skip_path_never_read :
    (∀ (fuel : Nat) (src dest : Path) (toSkip : List Path) (info : FInfo)
       (opt : Options) (p : Path) (s : St) (op : SysOp),
       p ∈ toSkip → (∀ x, effOnSymlink opt x ≠ .Deep) →
       op ∈ (Out.st (copy fuel src dest toSkip info opt s)).tr →
       op ∈ s.tr ∨ op.readPath ≠ some p) ∧
    (∀ (fuel : Nat) (src dest : Path) (toSkip : List Path) (info : FInfo)
       (opt : Options) (r : List String) (s : St),
       (src ++ r) ∈ toSkip → (∀ x, effOnSymlink opt x ≠ .Deep) →
       ((Out.st (copy fuel src dest toSkip info opt s)).fs).lookup (dest ++ r) =
         s.fs.lookup (dest ++ r)) := by
  constructor
  · intro fuel src dest toSkip info opt p s op hmem hnd hop
    exact avoidsRead_copy p toSkip opt hmem hnd fuel src dest info s op hop
  · intro fuel src dest toSkip info opt r s hmem hnd
    exact copy_skip_dest fuel src dest toSkip info opt r hmem hnd s

/-- Example state for several witnesses: a single regular file `a`. -/
def exFileSt : St := ⟨⟨[(["a"], Node.file 0o644 [104, 105])]⟩, []⟩

/-! Success-path characterization of `fcopy`, used by the functional
correctness and idempotence claims. -/

theorem mbind_ok {α β : Type} {t : M α} {k : α → M β} {s : St} {b : β} {s' : St}
    (h : mbind t k s = .ok b s') :
    ∃ a s1, t s = .ok a s1 ∧ k a s1 = .ok b s' := by
  unfold mbind at h
  cases ht : t s with
  | ok a s1 =>
    rw [ht] at h
    exact ⟨a, s1, rfl, h⟩
  | err e s1 =>
    rw [ht] at h
    exact Out.noConfusion h

theorem mMkdirAll_ok {p : Path} {mode : Nat} {s : St} {u : Unit} {s1 : St}
    (h : mMkdirAll p mode s = .ok u s1) :
    ∃ fs1, FS.mkdirAll s.fs p mode = .ok fs1 ∧ s1 = ⟨fs1, s.tr ++ [.mkdirAllOp p]⟩ := by
  unfold mMkdirAll at h
  cases hc : FS.mkdirAll s.fs p mode with
  | ok fs1 =>
    rw [hc] at h
    injection h with h1 h2
    exact ⟨fs1, rfl, h2.symm⟩
  | error e =>
    rw [hc] at h
    exact Out.noConfusion h

theorem mCreate_ok {p : Path} {s : St} {u : Unit} {s1 : St}
    (h : mCreate p s = .ok u s1) :
    ∃ fs1, FS.create s.fs p = .ok fs1 ∧ s1 = ⟨fs1, s.tr ++ [.createOp p]⟩ := by
  unfold mCreate at h
  cases hc : FS.create s.fs p with
  | ok fs1 =>
    rw [hc] at h
    injection h with h1 h2
    exact ⟨fs1, rfl, h2.symm⟩
  | error e =>
    rw [hc] at h
    exact Out.noConfusion h

theorem mChmod_ok {p : Path} {mode : Nat} {s : St} {u : Unit} {s1 : St}
    (h : mChmod p mode s = .ok u s1) :
    ∃ fs1, FS.chmod s.fs p mode = .ok fs1 ∧ s1 = ⟨fs1, s.tr ++ [.chmodOp p]⟩ := by
  unfold mChmod at h
  cases hc : FS.chmod s.fs p mode with
  | ok fs1 =>
    rw [hc] at h
    injection h with h1 h2
    exact ⟨fs1, rfl, h2.symm⟩
  | error e =>
    rw [hc] at h
    exact Out.noConfusion h

theorem mOpen_ok {p : Path} {s : St} {content : List Nat} {s1 : St}
    (h : mOpen p s = .ok content s1) :
    FS.openRead s.fs p = .ok content ∧ s1 = ⟨s.fs, s.tr ++ [.openReadOp p]⟩ := by
  unfold mOpen at h
  cases hc : FS.openRead s.fs p with
  | ok c =>
    rw [hc] at h
    injection h with h1 h2
    exact ⟨by rw [h1], h2.symm⟩
  | error e =>
    rw [hc] at h
    exact Out.noConfusion h

theorem mWriteAll_ok {p : Path} {content : List Nat} {s : St} {u : Unit} {s1 : St}
    (h : mWriteAll p content s = .ok u s1) :
    ∃ fs1, FS.writeAll s.fs p content = .ok fs1 ∧ s1 = ⟨fs1, s.tr ++ [.writeOp p]⟩ := by
  unfold mWriteAll at h
  cases hc : FS.writeAll s.fs p content with
  | ok fs1 =>
    rw [hc] at h
    injection h with h1 h2
    exact ⟨fs1, rfl, h2.symm⟩
  | error e =>
    rw [hc] at h
    exact Out.noConfusion h

theorem mLstat_ok {p : Path} {s : St} {info : FInfo} {s1 : St}
    (h : mLstat p s = .ok info s1) :
    FS.lstat s.fs p = .ok info ∧ s1 = ⟨s.fs, s.tr ++ [.lstatOp p]⟩ := by
  unfold mLstat at h
  cases hc : FS.lstat s.fs p with
  | ok i =>
    rw [hc] at h
    injection h with h1 h2
    exact ⟨by rw [h1], h2.symm⟩
  | error e =>
    rw [hc] at h
    exact Out.noConfusion h

theorem FS.chmod_file {fs : FS} {p : Path} {μ : Nat} {c : List Nat} (mode : Nat)
    (h : fs.lookup p = some (.file μ c)) :
    FS.chmod fs p mode = .ok (fs.insert p (.file mode c)) := by
  simp [FS.chmod, h]

theorem FS.writeAll_file {fs : FS} {p : Path} {μ : Nat} {c : List Nat}
    (content : List Nat) (h : fs.lookup p = some (.file μ c)) :
    FS.writeAll fs p content = .ok (fs.insert p (.file μ content)) := by
  simp [FS.writeAll, h]

theorem FS.openRead_ok_shape {fs : FS} {p : Path} {content : List Nat}
    (h : FS.openRead fs p = .ok content) :
    ∃ m, fs.lookup p = some (.file m content) := by
  unfold FS.openRead at h
  cases hl : fs.lookup p with
  | none => rw [hl] at h; exact Except.noConfusion h
  | some node =>
    cases node with
    | file m c =>
      rw [hl] at h
      injection h with h1
      exact ⟨m, by rw [h1]⟩
    | dir m => rw [hl] at h; exact Except.noConfusion h
    | symlink t => rw [hl] at h; exact Except.noConfusion h

/-- A successful `fcopy` run decomposes into: parents made, the source was
readable as a file (with its content taken after the parent creation,
which preserves existing bindings), and the final filesystem binds the
destination to a file with the source entry's mode and that content while
agreeing with the post-`MkdirAll` filesystem everywhere else. -/
theorem fcopy_ok_facts {src dest : Path} {info : FInfo} {s s' : St}
    (hne : src ≠ dest) (h : fcopy src dest info s = .ok () s') :
    ∃ fs1 m C, FS.mkdirAll s.fs dest.dropLast 0o777 = .ok fs1 ∧
      dest ≠ [] ∧
      fs1.lookup src = some (.file m C) ∧
      s'.fs.lookup dest = some (.file info.mode C) ∧
      (∀ q, q ≠ dest → s'.fs.lookup q = fs1.lookup q) := by
  unfold fcopy at h
  obtain ⟨u1, s1, hm, h⟩ := mbind_ok h
  obtain ⟨u2, s2, hc, h⟩ := mbind_ok h
  have h' : (mbind (mChmod dest info.mode) fun _ =>
      mbind (mOpen src) fun content =>
      fcloseDeferM (mWriteAll dest content)) s2 = .ok () s' := h
  obtain ⟨u3, s3, hch, h2⟩ := mbind_ok h'
  obtain ⟨content, s4, ho, h3⟩ := mbind_ok h2
  have h4 : mWriteAll dest content s4 = .ok () s' := h3
  obtain ⟨fs1, hmk, hs1⟩ := mMkdirAll_ok hm
  have hs1f : s1.fs = fs1 := by rw [hs1]
  obtain ⟨fs2, hcr, hs2⟩ := mCreate_ok hc
  have hs2f : s2.fs = fs2 := by rw [hs2]
  rw [hs1f] at hcr
  obtain ⟨hdne, μ, hfs2⟩ := FS.create_ok_shape _ _ _ hcr
  obtain ⟨fs3, hch', hs3⟩ := mChmod_ok hch
  have hs3f : s3.fs = fs3 := by rw [hs3]
  rw [hs2f, hfs2] at hch'
  have hlk2 : (fs1.insert dest (.file μ [])).lookup dest = some (.file μ []) :=
    FS.lookup_insert_self _ _ _
  rw [FS.chmod_file info.mode hlk2] at hch'
  injection hch' with hfs3
  obtain ⟨ho', hs4⟩ := mOpen_ok ho
  have hs4f : s4.fs = s3.fs := by rw [hs4]
  rw [hs3f, ← hfs3] at ho'
  obtain ⟨m, hsrc3⟩ := FS.openRead_ok_shape ho'
  have hsrc1 : fs1.lookup src = some (.file m content) := by
    rw [FS.lookup_insert_ne _ _ _ _ hne, FS.lookup_insert_ne _ _ _ _ hne] at hsrc3
    exact hsrc3
  obtain ⟨fs5, hw', hs5⟩ := mWriteAll_ok h4
  have hs5f : s'.fs = fs5 := by rw [hs5]
  rw [hs4f, hs3f, ← hfs3] at hw'
  have hlk3 : ((fs1.insert dest (.file μ [])).insert dest
      (.file info.mode [])).lookup dest = some (.file info.mode []) :=
    FS.lookup_insert_self _ _ _
  rw [FS.writeAll_file content hlk3] at hw'
  injection hw' with hfs5
  refine ⟨fs1, m, content, hmk, hdne, hsrc1, ?_, ?_⟩
  · rw [hs5f, ← hfs5]
    exact FS.lookup_insert_self _ _ _
  · intro q hq
    rw [hs5f, ← hfs5]
    rw [FS.lookup_insert_ne _ _ _ _ hq, FS.lookup_insert_ne _ _ _ _ hq,
      FS.lookup_insert_ne _ _ _ _ hq]

/-- Counterexample to C1 as stated: copying the file `a` (content
`[104, 105]`, mode 0644) onto itself succeeds, but the resulting file at
the destination path is empty — `os.Create` truncates the destination
before the source is opened, so with `dest = src` the content is lost. -/
theorem copy_same_path_truncates :
    Copy 2 ["a"] ["a"] [] exFileSt =
      .ok () (Out.st (Copy 2 ["a"] ["a"] [] exFileSt)) ∧
    FS.lookup exFileSt.fs ["a"] = some (.file 0o644 [104, 105]) ∧
    FS.lookup (Out.st (Copy 2 ["a"] ["a"] [] exFileSt)).fs ["a"] =
      some (.file 0o644 []) ∧
    some (Node.file 0o644 ([] : List Nat)) ≠ some (Node.file 0o644 [104, 105]) :=
  ⟨by decide, by decide, by decide, by decide⟩

/-- C1 (amended): for a regular source file with content C and mode M and
a destination path distinct from the source path, a successful `Copy`
leaves the destination bound to a file with exactly content C and mode
M. -/
theorem copy_file_preserves_content_mode (fuel : Nat) (src dest : Path)
    (opt : List Options) (m : Nat) (C : List Nat) (s s' : St)
    (hne : src ≠ dest)
    (hsrc : s.fs.lookup src = some (.file m C))
    (h : Copy fuel src dest opt s = .ok () s') :
    s'.fs.lookup dest = some (.file m C) := by
  unfold Copy CopyButSkipSome at h
  obtain ⟨info, s1, hls, h⟩ := mbind_ok h
  obtain ⟨hls', hs1⟩ := mLstat_ok hls
  have hinfo : info = ⟨src.getLastD "", Ftype.file, m⟩ := by
    rw [show FS.lstat s.fs src = .ok (⟨src.getLastD "", Ftype.file, m⟩ : FInfo) from by
      simp [FS.lstat, hsrc, Node.finfo, Node.ftypeOf, Node.modeOf]] at hls'
    injection hls' with h1
    exact h1.symm
  subst hinfo
  have hs1f : s1.fs = s.fs := by rw [hs1]
  cases fuel with
  | zero => simp [copy] at h
  | succ n =>
    simp only [copy, List.contains_nil, Bool.false_eq_true, if_false,
      show ((⟨src.getLastD "", Ftype.file, m⟩ : FInfo).ftype == Ftype.symlink) = false from rfl,
      show ((⟨src.getLastD "", Ftype.file, m⟩ : FInfo).ftype == Ftype.dir) = false from rfl] at h
    obtain ⟨fs1, m', C', hmk, hdne, hsrc1, hdest, hframe⟩ := fcopy_ok_facts hne h
    rw [hs1f] at hmk
    have hsrc1' : fs1.lookup src = some (.file m C) :=
      FS.mkdirAll_preserves s.fs fs1 dest.dropLast 0o777 hmk src _ hsrc
    rw [hsrc1'] at hsrc1
    injection hsrc1 with hn
    injection hn with hm' hC'
    subst hm'
    subst hC'
    exact hdest

/-- Witness for the amended C1 at a concrete file and distinct
destination. -/
theorem copy_file_preserves_content_mode_w :
    FS.lookup (Out.st (Copy 2 ["a"] ["b"] [] exFileSt)).fs ["b"] =
      some (.file 0o644 [104, 105]) :=
  copy_file_preserves_content_mode 2 ["a"] ["b"] [] 0o644 [104, 105] exFileSt
    (Out.st (Copy 2 ["a"] ["b"] [] exFileSt)) (by decide) (by decide) (by decide)

/-! Machinery for re-running a copy over its own output (idempotence). -/

/-- All the directories along a component walk exist. -/
def FS.dirsAlong (fs : FS) : Path → List String → Prop
  | _, [] => True
  | base, n :: rest =>
    (∃ m, fs.lookup (base ++ [n]) = some (.dir m)) ∧ fs.dirsAlong (base ++ [n]) rest

/-- After a successful `mkdirs` walk, all the directories along the walk
exist. -/
theorem FS.mkdirs_ok_dirsAlong (base : Path) (rest : List String) :
    ∀ (fs fs' : FS) (mode : Nat), FS.mkdirs fs base rest mode = .ok fs' →
    fs'.dirsAlong base rest := by
  induction rest generalizing base with
  | nil => intro fs fs' mode _; trivial
  | cons a rest ih =>
    intro fs fs' mode h
    simp only [FS.mkdirs] at h
    cases hl : fs.lookup (base ++ [a]) with
    | none =>
      rw [hl] at h
      refine ⟨⟨mode, ?_⟩, ih (base ++ [a]) _ fs' mode h⟩
      exact FS.mkdirs_preserves (base ++ [a]) rest _ fs' mode h (base ++ [a]) _
        (FS.lookup_insert_self fs (base ++ [a]) (.dir mode))
    | some node =>
      cases node with
      | dir m =>
        rw [hl] at h
        exact ⟨⟨m, FS.mkdirs_preserves (base ++ [a]) rest fs fs' mode h _ _ hl⟩,
          ih (base ++ [a]) fs fs' mode h⟩
      | file m c => rw [hl] at h; exact Except.noConfusion h
      | symlink t => rw [hl] at h; exact Except.noConfusion h

/-- When all the directories along the walk already exist, `mkdirs` is a
no-op that succeeds without changing the filesystem. -/
theorem FS.dirsAlong_mkdirs_noop (base : Path) (rest : List String) :
    ∀ (fs : FS) (mode : Nat), fs.dirsAlong base rest →
    FS.mkdirs fs base rest mode = .ok fs := by
  induction rest generalizing base with
  | nil => intro fs mode _; rfl
  | cons a rest ih =>
    intro fs mode hd
    obtain ⟨⟨m, hm⟩, hrest⟩ := hd
    simp only [FS.mkdirs]
    rw [hm]
    exact ih (base ++ [a]) fs mode hrest

/-- Directory existence along a walk transfers along a filesystem that
agrees on all paths short enough to occur in the walk. -/
theorem FS.dirsAlong_congr (base : Path) (rest : List String) :
    ∀ (fs fs2 : FS),
    (∀ q : Path, q.length ≤ base.length + rest.length → fs2.lookup q = fs.lookup q) →
    fs.dirsAlong base rest → fs2.dirsAlong base rest := by
  induction rest generalizing base with
  | nil => intro fs fs2 _ _; trivial
  | cons a rest ih =>
    intro fs fs2 hagree hd
    obtain ⟨⟨m, hm⟩, hrest⟩ := hd
    constructor
    · refine ⟨m, ?_⟩
      rw [hagree (base ++ [a]) (by
        have e1 : (base ++ [a]).length = base.length + 1 := by simp
        rw [e1]
        simp only [List.length_cons]
        omega)]
      exact hm
    · refine ih (base ++ [a]) fs fs2 (fun q hq => hagree q ?_) hrest
      have e1 : (base ++ [a]).length = base.length + 1 := by simp
      rw [e1] at hq
      simp only [List.length_cons]
      omega

theorem FS.create_file {fs : FS} {p : Path} {μ : Nat} {c : List Nat}
    (hp : p ≠ []) (h : fs.lookup p = some (.file μ c)) :
    FS.create fs p = .ok (fs.insert p (.file μ [])) := by
  unfold FS.create
  rw [if_neg (by simpa using hp), h]

theorem FS.openRead_file {fs : FS} {p : Path} {μ : Nat} {c : List Nat}
    (h : fs.lookup p = some (.file μ c)) :
    FS.openRead fs p = .ok c := by
  simp [FS.openRead, h]

theorem mbind_ok_intro {α β : Type} {t : M α} {k : α → M β} {s : St} {a : α}
    {s1 : St} {b : β} {s' : St} (h1 : t s = .ok a s1) (h2 : k a s1 = .ok b s') :
    mbind t k s = .ok b s' := by
  unfold mbind
  rw [h1]
  exact h2

theorem mLstat_intro {p : Path} {s : St} {i : FInfo}
    (h : FS.lstat s.fs p = .ok i) :
    mLstat p s = .ok i ⟨s.fs, s.tr ++ [.lstatOp p]⟩ := by
  unfold mLstat
  rw [h]

theorem mMkdirAll_intro {p : Path} {mode : Nat} {s : St} {fs1 : FS}
    (h : FS.mkdirAll s.fs p mode = .ok fs1) :
    mMkdirAll p mode s = .ok () ⟨fs1, s.tr ++ [.mkdirAllOp p]⟩ := by
  unfold mMkdirAll
  rw [h]

theorem mCreate_intro {p : Path} {s : St} {fs1 : FS}
    (h : FS.create s.fs p = .ok fs1) :
    mCreate p s = .ok () ⟨fs1, s.tr ++ [.createOp p]⟩ := by
  unfold mCreate
  rw [h]

theorem mChmod_intro {p : Path} {mode : Nat} {s : St} {fs1 : FS}
    (h : FS.chmod s.fs p mode = .ok fs1) :
    mChmod p mode s = .ok () ⟨fs1, s.tr ++ [.chmodOp p]⟩ := by
  unfold mChmod
  rw [h]

theorem mOpen_intro {p : Path} {s : St} {content : List Nat}
    (h : FS.openRead s.fs p = .ok content) :
    mOpen p s = .ok content ⟨s.fs, s.tr ++ [.openReadOp p]⟩ := by
  unfold mOpen
  rw [h]

theorem mWriteAll_intro {p : Path} {content : List Nat} {s : St} {fs1 : FS}
    (h : FS.writeAll s.fs p content = .ok fs1) :
    mWriteAll p content s = .ok () ⟨fs1, s.tr ++ [.writeOp p]⟩ := by
  unfold mWriteAll
  rw [h]

/-- Forward construction of a successful `fcopy` run from successful
results of its five filesystem operations. -/
theorem fcopy_ok_build {src dest : Path} {info : FInfo} {s : St}
    {fs1 fs2 fs3 fs5 : FS} {content : List Nat}
    (h1 : FS.mkdirAll s.fs dest.dropLast 0o777 = .ok fs1)
    (h2 : FS.create fs1 dest = .ok fs2)
    (h3 : FS.chmod fs2 dest info.mode = .ok fs3)
    (h4 : FS.openRead fs3 src = .ok content)
    (h5 : FS.writeAll fs3 dest content = .ok fs5) :
    fcopy src dest info s = .ok () ⟨fs5,
      ((((s.tr ++ [.mkdirAllOp dest.dropLast]) ++ [.createOp dest]) ++
        [.chmodOp dest]) ++ [.openReadOp src]) ++ [.writeOp dest]⟩ := by
  unfold fcopy
  refine mbind_ok_intro (mMkdirAll_intro h1) ?_
  refine mbind_ok_intro (mCreate_intro h2) ?_
  show (mbind (mChmod dest info.mode) fun _ =>
    mbind (mOpen src) fun content => fcloseDeferM (mWriteAll dest content)) _ = _
  refine mbind_ok_intro (mChmod_intro h3) ?_
  refine mbind_ok_intro (mOpen_intro h4) ?_
  exact mWriteAll_intro h5

/-! Directory-listing extensionality: the sorted, deduplicated child-name
listing of `ReadDir` is determined by the filesystem's lookup function
alone, so two filesystems with the same bindings produce the same listing.
This underlies the replay argument for idempotence: re-running the copier
lists the same children in the same order. -/

theorem mem_insertSorted (x a : String) : ∀ l : List String,
    a ∈ insertSorted x l ↔ a = x ∨ a ∈ l := by
  intro l
  induction l with
  | nil => simp [insertSorted]
  | cons y ys ih =>
    by_cases hxy : x < y
    · simp only [insertSorted, if_pos hxy, List.mem_cons]
    · simp only [insertSorted, if_neg hxy, List.mem_cons, ih]
      tauto

theorem insertSorted_perm (x : String) : ∀ l : List String,
    List.Perm (insertSorted x l) (x :: l) := by
  intro l
  induction l with
  | nil => exact List.Perm.refl _
  | cons y ys ih =>
    by_cases hxy : x < y
    · simp only [insertSorted, if_pos hxy]
      exact List.Perm.refl _
    · simp only [insertSorted, if_neg hxy]
      exact (List.Perm.cons y ih).trans (List.Perm.swap x y ys)

theorem sortNames_perm : ∀ l : List String, List.Perm (sortNames l) l := by
  intro l
  induction l with
  | nil => exact List.Perm.refl _
  | cons x xs ih =>
    exact (insertSorted_perm x (sortNames xs)).trans (List.Perm.cons x ih)

theorem sorted_insertSorted (x : String) : ∀ l : List String,
    l.Sorted (· ≤ ·) → (insertSorted x l).Sorted (· ≤ ·) := by
  intro l
  induction l with
  | nil => intro _; simp [insertSorted]
  | cons y ys ih =>
    intro hs
    rw [List.sorted_cons] at hs
    obtain ⟨hy, hys⟩ := hs
    by_cases hxy : x < y
    · simp only [insertSorted, if_pos hxy]
      rw [List.sorted_cons]
      refine ⟨?_, ?_⟩
      · intro b hb
        rcases List.mem_cons.1 hb with rfl | hb
        · exact le_of_lt hxy
        · exact le_trans (le_of_lt hxy) (hy b hb)
      · rw [List.sorted_cons]
        exact ⟨hy, hys⟩
    · simp only [insertSorted, if_neg hxy]
      rw [List.sorted_cons]
      refine ⟨?_, ih hys⟩
      intro b hb
      rcases (mem_insertSorted x b ys).1 hb with rfl | hb
      · exact le_of_not_lt hxy
      · exact hy b hb

theorem sortNames_sorted : ∀ l : List String, (sortNames l).Sorted (· ≤ ·) := by
  intro l
  induction l with
  | nil => exact List.sorted_nil
  | cons x xs ih => exact sorted_insertSorted x (sortNames xs) ih

theorem FS.childNames_sorted (fs : FS) (p : Path) :
    (fs.childNames p).Sorted (· ≤ ·) :=
  sortNames_sorted _

theorem FS.childNames_nodup (fs : FS) (p : Path) :
    (fs.childNames p).Nodup := by
  unfold FS.childNames
  exact (sortNames_perm _).nodup_iff.2 (List.nodup_dedup _)

/-- A path is bound exactly when some entry of the association list carries
it as key. -/
theorem FS.lookup_isSome_iff (fs : FS) (q : Path) :
    (fs.lookup q).isSome = true ↔ ∃ e ∈ fs.entries, e.1 = q := by
  unfold FS.lookup
  cases h : List.find? (fun e => e.1 == q) fs.entries with
  | none =>
    simp only [Option.map_none', Option.isSome_none, Bool.false_eq_true, false_iff]
    rintro ⟨e, he, heq⟩
    have h2 := List.find?_eq_none.1 h e he
    simp [heq] at h2
  | some e =>
    simp only [Option.map_some', Option.isSome_some, true_iff]
    refine ⟨e, List.mem_of_find?_eq_some h, ?_⟩
    have h2 := List.find?_some h
    simpa using h2

/-- The child names of `p` are exactly the single-component extensions of
`p` that are bound, so the listing is determined by lookups alone. -/
theorem FS.mem_childNames (fs : FS) (p : Path) (n : String) :
    n ∈ fs.childNames p ↔ (fs.lookup (p ++ [n])).isSome = true := by
  unfold FS.childNames
  rw [(sortNames_perm _).mem_iff, List.mem_dedup, List.mem_filterMap,
    FS.lookup_isSome_iff]
  constructor
  · rintro ⟨e, he, hcond⟩
    by_cases hc : (e.1.dropLast == p && e.1 != ([] : Path)) = true
    · rw [if_pos hc] at hcond
      rw [Bool.and_eq_true] at hc
      have hdrop : e.1.dropLast = p := by simpa using hc.1
      have hne : e.1 ≠ [] := by simpa using hc.2
      have he1 : e.1.dropLast ++ [e.1.getLast hne] = e.1 :=
        List.dropLast_append_getLast hne
      have hlast : e.1.getLast hne = n := by
        rw [← he1, List.getLast?_concat] at hcond
        exact Option.some.inj hcond
      refine ⟨e, he, ?_⟩
      rw [← he1, hdrop, hlast]
    · rw [if_neg hc] at hcond
      exact Option.noConfusion hcond
  · rintro ⟨e, he, heq⟩
    refine ⟨e, he, ?_⟩
    have hcond : (e.1.dropLast == p && e.1 != ([] : Path)) = true := by
      rw [heq]
      simp [List.dropLast_concat]
    rw [if_pos hcond, heq]
    simp [List.getLast?_concat]

/-- Two filesystems binding the same single-component extensions of `p`
list the same child names: the listing is sorted and duplicate-free, hence
canonical. -/
theorem FS.childNames_ext (fs fs2 : FS) (p : Path)
    (h : ∀ n, (fs.lookup (p ++ [n])).isSome = (fs2.lookup (p ++ [n])).isSome) :
    fs.childNames p = fs2.childNames p := by
  have hperm : List.Perm (fs.childNames p) (fs2.childNames p) := by
    rw [List.perm_ext_iff_of_nodup (FS.childNames_nodup fs p)
      (FS.childNames_nodup fs2 p)]
    intro n
    rw [FS.mem_childNames, FS.mem_childNames, h n]
  exact List.eq_of_perm_of_sorted hperm (FS.childNames_sorted fs p)
    (FS.childNames_sorted fs2 p)

/-- `ReadDir` is extensional: it depends only on the binding at `p` and the
bindings at the single-component extensions of `p`. -/
theorem FS.readDir_ext (fs fs2 : FS) (p : Path)
    (hp : fs.lookup p = fs2.lookup p)
    (h : ∀ n, fs.lookup (p ++ [n]) = fs2.lookup (p ++ [n])) :
    FS.readDir fs p = FS.readDir fs2 p := by
  unfold FS.readDir
  rw [← hp]
  cases fs.lookup p with
  | none => rfl
  | some node =>
    cases node with
    | dir m =>
      have hnames : fs.childNames p = fs2.childNames p :=
        FS.childNames_ext fs fs2 p (fun n => by rw [h n])
      show Except.ok ((fs.childNames p).filterMap
          (fun n => (fs.lookup (p ++ [n])).map (fun node => node.finfo n))) =
        Except.ok ((fs2.childNames p).filterMap
          (fun n => (fs2.lookup (p ++ [n])).map (fun node => node.finfo n)))
      rw [← hnames]
      exact congrArg Except.ok (List.filterMap_congr (fun n _ => by rw [h n]))
    | file m c => rfl
    | symlink t => rfl

theorem FS.readDir_ok_dir {fs : FS} {p : Path} {L : List FInfo}
    (h : FS.readDir fs p = .ok L) : ∃ m, fs.lookup p = some (.dir m) := by
  unfold FS.readDir at h
  cases hl : fs.lookup p with
  | none => rw [hl] at h; exact Except.noConfusion h
  | some node =>
    cases node with
    | dir m => exact ⟨m, rfl⟩
    | file m c => rw [hl] at h; exact Except.noConfusion h
    | symlink t => rw [hl] at h; exact Except.noConfusion h

theorem FS.readDir_ok_list {fs : FS} {p : Path} {L : List FInfo}
    (h : FS.readDir fs p = .ok L) :
    L = (fs.childNames p).filterMap
      (fun n => (fs.lookup (p ++ [n])).map (fun node => node.finfo n)) := by
  unfold FS.readDir at h
  cases hl : fs.lookup p with
  | none => rw [hl] at h; exact Except.noConfusion h
  | some node =>
    cases node with
    | dir m =>
      rw [hl] at h
      injection h with h2
      exact h2.symm
    | file m c => rw [hl] at h; exact Except.noConfusion h
    | symlink t => rw [hl] at h; exact Except.noConfusion h

/-- Every entry of a directory listing is the stat descriptor of the
correspondingly named bound child. -/
theorem FS.readDir_mem {fs : FS} {p : Path} {L : List FInfo} {c : FInfo}
    (h : FS.readDir fs p = .ok L) (hc : c ∈ L) :
    ∃ node, fs.lookup (p ++ [c.name]) = some node ∧ c = node.finfo c.name := by
  rw [FS.readDir_ok_list h] at hc
  obtain ⟨n, hn, hmap⟩ := List.mem_filterMap.1 hc
  cases hl : fs.lookup (p ++ [n]) with
  | none => rw [hl] at hmap; exact Option.noConfusion hmap
  | some node =>
    rw [hl] at hmap
    have hcn : c = node.finfo n := (Option.some.inj hmap).symm
    have hname : c.name = n := by rw [hcn]; rfl
    refine ⟨node, ?_, ?_⟩
    · rw [hname]; exact hl
    · rw [hname]; exact hcn

theorem filterMap_guard_eq_filter {α β : Type} (g : α → Option β) :
    ∀ l : List α, l.filterMap (fun a => (g a).map (fun _ => a)) =
      l.filter (fun a => (g a).isSome) := by
  intro l
  induction l with
  | nil => rfl
  | cons a l ih =>
    cases hg : g a with
    | none => simp [List.filterMap_cons, List.filter_cons, hg, ih]
    | some b => simp [List.filterMap_cons, List.filter_cons, hg, ih]

/-- The names of a directory listing are exactly the child names. -/
theorem FS.readDir_listing_names {fs : FS} {p : Path} {L : List FInfo}
    (h : FS.readDir fs p = .ok L) :
    L.map FInfo.name = fs.childNames p := by
  rw [FS.readDir_ok_list h, List.map_filterMap]
  have e1 : ∀ n : String,
      ((fs.lookup (p ++ [n])).map (fun node => node.finfo n)).map FInfo.name =
        (fs.lookup (p ++ [n])).map (fun _ => n) := by
    intro n
    cases fs.lookup (p ++ [n]) <;> rfl
  rw [List.filterMap_congr (fun n _ => e1 n), filterMap_guard_eq_filter]
  refine List.filter_eq_self.2 ?_
  intro n hn
  exact (FS.mem_childNames fs p n).1 hn

/-- Listing names are duplicate-free: the per-child cones of a directory
copy are separated. -/
theorem FS.readDir_listing_nodup {fs : FS} {p : Path} {L : List FInfo}
    (h : FS.readDir fs p = .ok L) : (L.map FInfo.name).Nodup := by
  rw [FS.readDir_listing_names h]
  exact FS.childNames_nodup fs p

/-! Destructor and constructor lemmas for the remaining traced calls and
the deferred chmod wrapper, used to replay a recorded run. -/

theorem mReadDir_ok {p : Path} {s : St} {L : List FInfo} {s1 : St}
    (h : mReadDir p s = .ok L s1) :
    FS.readDir s.fs p = .ok L ∧ s1 = ⟨s.fs, s.tr ++ [.readDirOp p]⟩ := by
  unfold mReadDir at h
  cases hc : FS.readDir s.fs p with
  | ok l =>
    rw [hc] at h
    injection h with h1 h2
    exact ⟨by rw [h1], h2.symm⟩
  | error e =>
    rw [hc] at h
    exact Out.noConfusion h

theorem mReadDir_intro {p : Path} {s : St} {L : List FInfo}
    (h : FS.readDir s.fs p = .ok L) :
    mReadDir p s = .ok L ⟨s.fs, s.tr ++ [.readDirOp p]⟩ := by
  unfold mReadDir
  rw [h]

theorem chmodDefer_ok {p : Path} {mode : Nat} {r : Out Unit} {s2 : St}
    (h : chmodDefer p mode r = .ok () s2) :
    ∃ sB, r = .ok () sB ∧ mChmod p mode sB = .ok () s2 := by
  cases r with
  | ok a sB =>
    cases a
    have h2 : (match mChmod p mode sB with
      | .ok _ s1 => Out.ok () s1
      | .err e s1 => Out.err e s1) = Out.ok () s2 := h
    cases hm : mChmod p mode sB with
    | ok u s1 =>
      rw [hm] at h2
      cases u
      injection h2 with h3 h4
      exact ⟨sB, rfl, by rw [hm, h4]⟩
    | err e s1 =>
      rw [hm] at h2
      exact Out.noConfusion h2
  | err e sB =>
    have h2 : (match mChmod p mode sB with
      | .ok _ s1 => Out.err e s1
      | .err _ s1 => Out.err e s1) = Out.ok () s2 := h
    cases hm : mChmod p mode sB with
    | ok u s1 => rw [hm] at h2; exact Out.noConfusion h2
    | err e2 s1 => rw [hm] at h2; exact Out.noConfusion h2

theorem chmodDeferM_ok {p : Path} {mode : Nat} {t : M Unit} {s s2 : St}
    (h : chmodDeferM p mode t s = .ok () s2) :
    ∃ sB, t s = .ok () sB ∧ mChmod p mode sB = .ok () s2 :=
  chmodDefer_ok h

theorem chmodDeferM_ok_intro {p : Path} {mode : Nat} {t : M Unit} {s sB s2 : St}
    (h1 : t s = .ok () sB) (h2 : mChmod p mode sB = .ok () s2) :
    chmodDeferM p mode t s = .ok () s2 := by
  show chmodDefer p mode (t s) = .ok () s2
  rw [h1]
  show (match mChmod p mode sB with
    | .ok _ s1 => Out.ok () s1
    | .err e s1 => Out.err e s1) = Out.ok () s2
  rw [h2]

theorem FS.chmod_dir {fs : FS} {p : Path} {μ : Nat} (mode : Nat)
    (h : fs.lookup p = some (.dir μ)) :
    FS.chmod fs p mode = .ok (fs.insert p (.dir mode)) := by
  simp [FS.chmod, h]

theorem FS.lstat_ok_lookup {fs : FS} {p : Path} {i : FInfo}
    (h : FS.lstat fs p = .ok i) :
    ∃ node, fs.lookup p = some node ∧ i = node.finfo (p.getLastD "") := by
  unfold FS.lstat at h
  cases hl : fs.lookup p with
  | none => rw [hl] at h; exact Except.noConfusion h
  | some node =>
    rw [hl] at h
    injection h with h1
    exact ⟨node, rfl, h1.symm⟩

/-! Prefix-order facts about incomparable source and destination, and
closure properties of the directories-along-a-path predicate. -/

/-- When the source and the destination are prefix-incomparable, so is any
point of the source cone with any point of the destination cone. -/
theorem incomp_cones {cs cd : Path} (h1 : ¬ cs <+: cd) (h2 : ¬ cd <+: cs) :
    ∀ (r x : List String), ¬ (cs ++ r) <+: (cd ++ x) ∧ ¬ (cd ++ x) <+: (cs ++ r) := by
  intro r x
  constructor
  · intro hp
    have hcs : cs <+: cd ++ x := (List.prefix_append cs r).trans hp
    have hcd : cd <+: cd ++ x := List.prefix_append cd x
    rcases Nat.le_total cs.length cd.length with hle | hle
    · exact h1 (List.prefix_of_prefix_length_le hcs hcd hle)
    · exact h2 (List.prefix_of_prefix_length_le hcd hcs hle)
  · intro hp
    have hcd : cd <+: cs ++ r := (List.prefix_append cd x).trans hp
    have hcs : cs <+: cs ++ r := List.prefix_append cs r
    rcases Nat.le_total cs.length cd.length with hle | hle
    · exact h1 (List.prefix_of_prefix_length_le hcs hcd hle)
    · exact h2 (List.prefix_of_prefix_length_le hcd hcs hle)

theorem dirsAlong_mono {fs fs2 : FS} (hm : DirsMono fs fs2) :
    ∀ (base : Path) (rest : List String),
    fs.dirsAlong base rest → fs2.dirsAlong base rest := by
  intro base rest
  induction rest generalizing base with
  | nil => intro _; trivial
  | cons a rest ih =>
    rintro ⟨⟨m, hlm⟩, hrest⟩
    exact ⟨hm _ m hlm, ih (base ++ [a]) hrest⟩

theorem dirsAlong_append_singleton (fs : FS) :
    ∀ (base : Path) (xs : List String) (x : String),
    fs.dirsAlong base (xs ++ [x]) ↔
      (fs.dirsAlong base xs ∧ ∃ m, fs.lookup (base ++ xs ++ [x]) = some (.dir m)) := by
  intro base xs
  induction xs generalizing base with
  | nil =>
    intro x
    show ((∃ m, fs.lookup (base ++ [x]) = some (.dir m)) ∧
        fs.dirsAlong (base ++ [x]) []) ↔ _
    constructor
    · rintro ⟨hm, _⟩
      refine ⟨trivial, ?_⟩
      simpa using hm
    · rintro ⟨_, hm⟩
      refine ⟨?_, trivial⟩
      simpa using hm
  | cons a xs ih =>
    intro x
    show ((∃ m, fs.lookup (base ++ [a]) = some (.dir m)) ∧
        fs.dirsAlong (base ++ [a]) (xs ++ [x])) ↔ _
    rw [ih (base ++ [a]) x]
    constructor
    · rintro ⟨hm, hxs, hx⟩
      refine ⟨⟨hm, hxs⟩, ?_⟩
      simpa [List.append_assoc] using hx
    · rintro ⟨⟨hm, hxs⟩, hx⟩
      refine ⟨hm, hxs, ?_⟩
      simpa [List.append_assoc] using hx

theorem dirsAlong_dropLast (fs : FS) (l : Path)
    (h : fs.dirsAlong [] l) : fs.dirsAlong [] l.dropLast := by
  by_cases hne : l = []
  · subst hne
    exact h
  · have he : l.dropLast ++ [l.getLast hne] = l := List.dropLast_append_getLast hne
    rw [← he] at h
    exact ((dirsAlong_append_singleton fs [] l.dropLast (l.getLast hne)).1 h).1

theorem dirsAlong_extend (fs : FS) (l : Path) (hne : l ≠ [])
    (h1 : fs.dirsAlong [] l.dropLast) (h2 : ∃ m, fs.lookup l = some (.dir m)) :
    fs.dirsAlong [] l := by
  have he : l.dropLast ++ [l.getLast hne] = l := List.dropLast_append_getLast hne
  rw [← he]
  refine (dirsAlong_append_singleton fs [] l.dropLast (l.getLast hne)).2 ⟨h1, ?_⟩
  rw [List.nil_append, he]
  exact h2

/-! Replay lemmas: running the copier again over a destination that
already holds the copy succeeds and changes no binding. -/

/-- Replaying `fcopy` over a destination that already holds a file with
the source's content and the stat mode is a semantic no-op. -/
theorem fcopy_replay {cs cd : Path} {info : FInfo} {m : Nat} {C : List Nat} (t : St)
    (hda : t.fs.dirsAlong [] cd.dropLast)
    (hdst : t.fs.lookup cd = some (.file info.mode C))
    (hsrc : t.fs.lookup cs = some (.file m C))
    (hne : cs ≠ cd) (hcd : cd ≠ []) :
    ∃ t2, fcopy cs cd info t = .ok () t2 ∧ ∀ q, t2.fs.lookup q = t.fs.lookup q := by
  have hmk : FS.mkdirAll t.fs cd.dropLast 0o777 = .ok t.fs :=
    FS.dirsAlong_mkdirs_noop [] cd.dropLast t.fs 0o777 hda
  have hcr : FS.create t.fs cd = .ok (t.fs.insert cd (.file info.mode [])) :=
    FS.create_file hcd hdst
  have hch : FS.chmod (t.fs.insert cd (.file info.mode [])) cd info.mode =
      .ok ((t.fs.insert cd (.file info.mode [])).insert cd (.file info.mode [])) :=
    FS.chmod_file info.mode (FS.lookup_insert_self _ _ _)
  have hsrc2 : ((t.fs.insert cd (.file info.mode [])).insert cd
      (.file info.mode [])).lookup cs = some (.file m C) := by
    rw [FS.lookup_insert_ne _ _ _ _ hne, FS.lookup_insert_ne _ _ _ _ hne]
    exact hsrc
  have hop : FS.openRead ((t.fs.insert cd (.file info.mode [])).insert cd
      (.file info.mode [])) cs = .ok C :=
    FS.openRead_file hsrc2
  have hwr : FS.writeAll ((t.fs.insert cd (.file info.mode [])).insert cd
      (.file info.mode [])) cd C =
      .ok (((t.fs.insert cd (.file info.mode [])).insert cd
        (.file info.mode [])).insert cd (.file info.mode C)) :=
    FS.writeAll_file C (FS.lookup_insert_self _ _ _)
  refine ⟨⟨(((t.fs.insert cd (.file info.mode [])).insert cd
      (.file info.mode [])).insert cd (.file info.mode C)),
    ((((t.tr ++ [.mkdirAllOp cd.dropLast]) ++ [.createOp cd]) ++
      [.chmodOp cd]) ++ [.openReadOp cs]) ++ [.writeOp cd]⟩, ?_, ?_⟩
  · exact fcopy_ok_build hmk hcr hch hop hwr
  · intro q
    by_cases hq : q = cd
    · subst hq
      show (((t.fs.insert q (.file info.mode [])).insert q
        (.file info.mode [])).insert q (.file info.mode C)).lookup q = t.fs.lookup q
      rw [FS.lookup_insert_self, hdst]
    · show (((t.fs.insert cd (.file info.mode [])).insert cd
        (.file info.mode [])).insert cd (.file info.mode C)).lookup q = t.fs.lookup q
      rw [FS.lookup_insert_ne _ _ _ _ hq, FS.lookup_insert_ne _ _ _ _ hq,
        FS.lookup_insert_ne _ _ _ _ hq]

/-- A successful non-symlink dispatch with an empty skip set leaves every
proper prefix of the destination bound to a directory. -/
theorem copy_ok_dirsAlong (fuel : Nat) (cs cd : Path) (info : FInfo)
    (opt : Options) (s s1 : St)
    (h : copy fuel cs cd [] info opt s = .ok () s1)
    (hsym : info.ftype ≠ .symlink) :
    s1.fs.dirsAlong [] cd.dropLast := by
  cases fuel with
  | zero => simp [copy] at h
  | succ n =>
    obtain ⟨name, ftype, mode⟩ := info
    cases ftype with
    | symlink => exact absurd rfl hsym
    | dir =>
      simp only [copy, show (([] : List Path).contains cs) = false from rfl,
        Bool.false_eq_true, if_false,
        show ((⟨name, Ftype.dir, mode⟩ : FInfo).ftype == Ftype.symlink) = false from rfl,
        show ((⟨name, Ftype.dir, mode⟩ : FInfo).ftype == Ftype.dir) = true from rfl,
        if_true] at h
      obtain ⟨u, sA, hmkA, hrest⟩ := mbind_ok h
      obtain ⟨fsA, hmkAll, hsA⟩ := mMkdirAll_ok hmkA
      have hdaA : fsA.dirsAlong [] cd :=
        FS.mkdirs_ok_dirsAlong [] cd s.fs fsA tmpPermissionForDirectory hmkAll
      have hmono : DirsMono sA.fs s1.fs := by
        have hSD : StDirs (chmodDeferM cd mode
            (mbind (mReadDir cs) fun contents =>
              dchildren (copy n) cs cd [] opt contents)) :=
          stDirs_chmodDeferM cd mode
            (stDirs_mbind (stDirs_mReadDir cs) fun contents =>
              stDirs_dchildren (copy n) (fun a b c d e => stDirs_copy n a b c d e)
                cs cd [] opt contents)
        exact stDirs_of_ok hSD hrest
      have hsAf : sA.fs = fsA := by rw [hsA]
      rw [hsAf] at hmono
      exact dirsAlong_dropLast s1.fs cd (dirsAlong_mono hmono [] cd hdaA)
    | file =>
      simp only [copy, show (([] : List Path).contains cs) = false from rfl,
        Bool.false_eq_true, if_false,
        show ((⟨name, Ftype.file, mode⟩ : FInfo).ftype == Ftype.symlink) = false from rfl,
        show ((⟨name, Ftype.file, mode⟩ : FInfo).ftype == Ftype.dir) = false from rfl] at h
      obtain ⟨u, sA, hmkA, hrest⟩ := mbind_ok h
      obtain ⟨fsA, hmkAll, hsA⟩ := mMkdirAll_ok hmkA
      have hdaA : fsA.dirsAlong [] cd.dropLast :=
        FS.mkdirs_ok_dirsAlong [] cd.dropLast s.fs fsA 0o777 hmkAll
      have hmono : DirsMono sA.fs s1.fs := by
        have hSD : StDirs (mbind (mCreate cd) fun _ =>
            fcloseDeferM
              (mbind (mChmod cd mode) fun _ =>
                mbind (mOpen cs) fun content =>
                fcloseDeferM (mWriteAll cd content))) :=
          stDirs_mbind (stDirs_mCreate cd) fun _ =>
            stDirs_fcloseDeferM
              (stDirs_mbind (stDirs_mChmod cd mode) fun _ =>
                stDirs_mbind (stDirs_mOpen cs) fun content =>
                stDirs_fcloseDeferM (stDirs_mWriteAll cd content))
        exact stDirs_of_ok hSD hrest
      have hsAf : sA.fs = fsA := by rw [hsA]
      rw [hsAf] at hmono
      exact dirsAlong_mono hmono [] cd.dropLast hdaA

/-- Replaying a successful dispatcher run.  If `copy` with an empty skip
set succeeded from `s` ending at `s1`, the source cone of `s` holds no
symlinks, the stat descriptor matches the source binding, the source and
destination are prefix-incomparable, and `t` agrees with `s` on the source
cone and with `s1` on the destination cone while having directories along
the destination's proper prefixes, then the same call run from `t`
succeeds and changes no binding of `t`. -/
theorem copy_replay :
    ∀ (fuel : Nat) (cs cd : Path) (info : FInfo) (opt : Options) (s s1 t : St),
      copy fuel cs cd [] info opt s = .ok () s1 →
      ¬ cs <+: cd → ¬ cd <+: cs →
      (∀ r tg, s.fs.lookup (cs ++ r) ≠ some (.symlink tg)) →
      (∃ node, s.fs.lookup cs = some node ∧ info.ftype = node.ftypeOf) →
      (∀ r, t.fs.lookup (cs ++ r) = s.fs.lookup (cs ++ r)) →
      (∀ r, t.fs.lookup (cd ++ r) = s1.fs.lookup (cd ++ r)) →
      t.fs.dirsAlong [] cd.dropLast →
      ∃ t2, copy fuel cs cd [] info opt t = .ok () t2 ∧
        ∀ q, t2.fs.lookup q = t.fs.lookup q := by
  intro fuel
  induction fuel with
  | zero =>
    intro cs cd info opt s s1 t h
    simp [copy] at h
  | succ n ih =>
    intro cs cd info opt s s1 t h hp1 hp2 hnosym hinfo hsrcT hdstT hdaT
    have hnecs : cs ≠ cd := by
      intro he
      subst he
      exact hp1 (List.prefix_refl cs)
    have hcdne : cd ≠ [] := by
      intro he
      subst he
      exact hp2 List.nil_prefix
    obtain ⟨name, ftype, mode⟩ := info
    obtain ⟨node0, hnode0, hft0⟩ := hinfo
    cases ftype with
    | symlink =>
      cases node0 with
      | file m c => exact Ftype.noConfusion hft0
      | dir m => exact Ftype.noConfusion hft0
      | symlink tg =>
        refine absurd ?_ (hnosym [] tg)
        rw [List.append_nil]
        exact hnode0
    | file =>
      simp only [copy, show (([] : List Path).contains cs) = false from rfl,
        Bool.false_eq_true, if_false,
        show ((⟨name, Ftype.file, mode⟩ : FInfo).ftype == Ftype.symlink) = false from rfl,
        show ((⟨name, Ftype.file, mode⟩ : FInfo).ftype == Ftype.dir) = false from rfl] at h
      obtain ⟨fs1, m, C, hmk, hdne, hsrc1, hdest, hframe⟩ := fcopy_ok_facts hnecs h
      have hcs_out : ¬ cs <+: ([] ++ cd.dropLast) := by
        rw [List.nil_append]
        intro hpre
        exact hp1 (hpre.trans (dropLast_prefix_self cd))
      have hsrcS : s.fs.lookup cs = some (.file m C) := by
        rw [← FS.mkdirs_outside [] cd.dropLast s.fs fs1 0o777 hmk cs hcs_out]
        exact hsrc1
      have htc : t.fs.lookup cs = some (.file m C) := by
        have h2 := hsrcT []
        rw [List.append_nil] at h2
        rw [h2]
        exact hsrcS
      have htd : t.fs.lookup cd = some (.file mode C) := by
        have h2 := hdstT []
        rw [List.append_nil] at h2
        rw [h2]
        exact hdest
      obtain ⟨t2, hrun, hext⟩ :=
        @fcopy_replay cs cd ⟨name, Ftype.file, mode⟩ m C t hdaT htd htc hnecs hdne
      exact ⟨t2, hrun, hext⟩
    | dir =>
      simp only [copy, show (([] : List Path).contains cs) = false from rfl,
        Bool.false_eq_true, if_false,
        show ((⟨name, Ftype.dir, mode⟩ : FInfo).ftype == Ftype.symlink) = false from rfl,
        show ((⟨name, Ftype.dir, mode⟩ : FInfo).ftype == Ftype.dir) = true from rfl,
        if_true] at h
      obtain ⟨u0, sA, hmkA, hrest⟩ := mbind_ok h
      obtain ⟨fsA, hmkAll, hsA⟩ := mMkdirAll_ok hmkA
      have hsAf : sA.fs = fsA := by rw [hsA]
      obtain ⟨sB, hinner, hchB⟩ := chmodDeferM_ok hrest
      obtain ⟨L, sA2, hrdm, hdch⟩ := mbind_ok hinner
      obtain ⟨hrdA, hsA2⟩ := mReadDir_ok hrdm
      have hsA2f : sA2.fs = sA.fs := by rw [hsA2]
      obtain ⟨fsS1, hchS, hs1⟩ := mChmod_ok hchB
      have hs1f : s1.fs = fsS1 := by rw [hs1]
      have hAcs : ∀ r, fsA.lookup (cs ++ r) = s.fs.lookup (cs ++ r) := by
        intro r
        refine FS.mkdirs_outside [] cd s.fs fsA tmpPermissionForDirectory hmkAll _ ?_
        rw [List.nil_append]
        have h3 := (incomp_cones hp1 hp2 r []).1
        rw [List.append_nil] at h3
        exact h3
      have hrdS : FS.readDir s.fs cs = .ok L := by
        have he : FS.readDir s.fs cs = FS.readDir fsA cs := by
          refine FS.readDir_ext s.fs fsA cs ?_ ?_
          · have h2 := hAcs []
            rw [List.append_nil] at h2
            rw [h2]
          · intro n2
            rw [hAcs [n2]]
        rw [he, ← hsAf]
        exact hrdA
      have hnodupL : (L.map FInfo.name).Nodup := FS.readDir_listing_nodup hrdS
      have hmemL : ∀ c ∈ L, ∃ node, s.fs.lookup (cs ++ [c.name]) = some node ∧
          c = node.finfo c.name := fun c hc => FS.readDir_mem hrdS hc
      obtain ⟨mA, hdirA⟩ :=
        FS.mkdirAll_target_dir s.fs fsA cd tmpPermissionForDirectory hmkAll hcdne
      have hmonoAB : DirsMono sA.fs sB.fs := by
        have hSD : StDirs (mbind (mReadDir cs) fun contents =>
            dchildren (copy n) cs cd [] opt contents) :=
          stDirs_mbind (stDirs_mReadDir cs) fun contents =>
            stDirs_dchildren (copy n) (fun a b c d e => stDirs_copy n a b c d e)
              cs cd [] opt contents
        exact stDirs_of_ok hSD hinner
      obtain ⟨mB, hdirB⟩ := hmonoAB cd mA (by rw [hsAf]; exact hdirA)
      have hchS2 : FS.chmod sB.fs cd mode = .ok (sB.fs.insert cd (.dir mode)) :=
        FS.chmod_dir mode hdirB
      have hfsS1 : fsS1 = sB.fs.insert cd (.dir mode) := by
        rw [hchS] at hchS2
        exact Except.ok.inj hchS2
      have hs1cd : s1.fs.lookup cd = some (.dir mode) := by
        rw [hs1f, hfsS1]
        exact FS.lookup_insert_self _ _ _
      have hs1_other : ∀ q, q ≠ cd → s1.fs.lookup q = sB.fs.lookup q := by
        intro q hq
        rw [hs1f, hfsS1]
        exact FS.lookup_insert_ne _ _ _ _ hq
      have htdcd : t.fs.lookup cd = some (.dir mode) := by
        have h2 := hdstT []
        rw [List.append_nil] at h2
        rw [h2]
        exact hs1cd
      have hdaTcd : t.fs.dirsAlong [] cd :=
        dirsAlong_extend t.fs cd hcdne hdaT ⟨mode, htdcd⟩
      have hrep : ∀ L2 : List FInfo,
          (∀ c ∈ L2, ∃ node, s.fs.lookup (cs ++ [c.name]) = some node ∧
            c = node.finfo c.name) →
          (L2.map FInfo.name).Nodup →
          ∀ σ sE u : St,
          dchildren (copy n) cs cd [] opt L2 σ = .ok () sE →
          (∀ r, σ.fs.lookup (cs ++ r) = s.fs.lookup (cs ++ r)) →
          (∀ r, u.fs.lookup (cs ++ r) = s.fs.lookup (cs ++ r)) →
          (∀ c ∈ L2, ∀ r, u.fs.lookup ((cd ++ [c.name]) ++ r) =
            sE.fs.lookup ((cd ++ [c.name]) ++ r)) →
          u.fs.dirsAlong [] cd →
          ∃ u2, dchildren (copy n) cs cd [] opt L2 u = .ok () u2 ∧
            ∀ q, u2.fs.lookup q = u.fs.lookup q := by
        intro L2
        induction L2 with
        | nil =>
          intro _ _ σ sE u hd _ _ _ _
          exact ⟨u, rfl, fun q => rfl⟩
        | cons c rest ihL =>
          intro hmem2 hnodup2 σ sE u hd hσsrc husrc hudst huda
          obtain ⟨⟨⟩, σ2, hc1, hrest1⟩ := mbind_ok hd
          obtain ⟨nodeC, hnodeC, hcinfo⟩ := hmem2 c (List.mem_cons_self c rest)
          have hnodup_head : c.name ∉ rest.map FInfo.name := by
            have h2 := hnodup2
            rw [List.map_cons] at h2
            exact (List.nodup_cons.1 h2).1
          have hnodup_tail : (rest.map FInfo.name).Nodup := by
            have h2 := hnodup2
            rw [List.map_cons] at h2
            exact (List.nodup_cons.1 h2).2
          have hmem_tail : ∀ c2 ∈ rest, ∃ node,
              s.fs.lookup (cs ++ [c2.name]) = some node ∧ c2 = node.finfo c2.name :=
            fun c2 hc2 => hmem2 c2 (List.mem_cons_of_mem c hc2)
          have hσ2src : ∀ r, σ2.fs.lookup (cs ++ r) = s.fs.lookup (cs ++ r) := by
            intro r
            have hnc : NoChangeAt (cs ++ r)
                (copy n (cs ++ [c.name]) (cd ++ [c.name]) [] c opt) :=
              copy_frame n (cs ++ [c.name]) (cd ++ [c.name]) [] c opt (cs ++ r)
                (incomp_cones hp1 hp2 r [c.name]).1
                (incomp_cones hp1 hp2 r [c.name]).2
            rw [noChangeAt_of_ok hnc hc1]
            exact hσsrc r
          have hrestfr : ∀ r, sE.fs.lookup ((cd ++ [c.name]) ++ r) =
              σ2.fs.lookup ((cd ++ [c.name]) ++ r) := by
            intro r
            refine noChangeAt_of_ok ?_ hrest1
            refine noChangeAt_dchildren (copy n) cs cd [] opt rest ?_
            intro c2 hc2
            refine copy_frame n (cs ++ [c2.name]) (cd ++ [c2.name]) [] c2 opt _ ?_ ?_
            · intro hpre
              rw [List.append_assoc] at hpre
              have h3 := prefix_cancel_left cd ([c.name] ++ r) [c2.name] hpre
              rw [show [c.name] ++ r = c.name :: r from rfl, List.cons_prefix_cons] at h3
              refine hnodup_head ?_
              rw [h3.1]
              exact List.mem_map_of_mem FInfo.name hc2
            · intro hpre
              rw [List.append_assoc] at hpre
              have h3 := prefix_cancel_left cd [c2.name] ([c.name] ++ r) hpre
              rw [show ([c.name] ++ r : List String) = c.name :: r from rfl,
                List.cons_prefix_cons] at h3
              refine hnodup_head ?_
              rw [← h3.1]
              exact List.mem_map_of_mem FInfo.name hc2
          have hudst_head : ∀ r, u.fs.lookup ((cd ++ [c.name]) ++ r) =
              σ2.fs.lookup ((cd ++ [c.name]) ++ r) := by
            intro r
            rw [hudst c (List.mem_cons_self c rest) r]
            exact hrestfr r
          obtain ⟨u1, hrun1, hext1⟩ := ih (cs ++ [c.name]) (cd ++ [c.name]) c opt σ σ2 u
            hc1
            (incomp_cones hp1 hp2 [c.name] [c.name]).1
            (incomp_cones hp1 hp2 [c.name] [c.name]).2
            (fun r tg => by
              rw [List.append_assoc, hσsrc ([c.name] ++ r)]
              exact hnosym ([c.name] ++ r) tg)
            ⟨nodeC, by rw [hσsrc [c.name]]; exact hnodeC, by rw [hcinfo]; exact rfl⟩
            (fun r => by
              rw [List.append_assoc, husrc ([c.name] ++ r), ← hσsrc ([c.name] ++ r)])
            hudst_head
            (by rw [List.dropLast_concat]; exact huda)
          obtain ⟨u2, hrun2, hext2⟩ := ihL hmem_tail hnodup_tail σ2 sE u1
            hrest1
            hσ2src
            (fun r => by rw [hext1 (cs ++ r)]; exact husrc r)
            (fun c2 hc2 r => by
              rw [hext1 ((cd ++ [c2.name]) ++ r)]
              exact hudst c2 (List.mem_cons_of_mem c hc2) r)
            (FS.dirsAlong_congr [] cd u.fs u1.fs (fun q hq => hext1 q) huda)
          refine ⟨u2, ?_, fun q => (hext2 q).trans (hext1 q)⟩
          exact mbind_ok_intro hrun1 hrun2
      have hmkT : FS.mkdirAll t.fs cd tmpPermissionForDirectory = .ok t.fs :=
        FS.dirsAlong_mkdirs_noop [] cd t.fs tmpPermissionForDirectory hdaTcd
      have hrdT : FS.readDir t.fs cs = .ok L := by
        have he : FS.readDir t.fs cs = FS.readDir s.fs cs := by
          refine FS.readDir_ext t.fs s.fs cs ?_ ?_
          · have h2 := hsrcT []
            rw [List.append_nil] at h2
            exact h2
          · intro n2
            exact hsrcT [n2]
        rw [he]
        exact hrdS
      obtain ⟨u2, hdrun, hdext⟩ := hrep L hmemL hnodupL sA2 sB
        ⟨t.fs, (t.tr ++ [.mkdirAllOp cd]) ++ [.readDirOp cs]⟩
        hdch
        (fun r => by rw [hsA2f, hsAf]; exact hAcs r)
        (fun r => hsrcT r)
        (fun c2 hc2 r => by
          show t.fs.lookup ((cd ++ [c2.name]) ++ r) =
            sB.fs.lookup ((cd ++ [c2.name]) ++ r)
          have hqne : (cd ++ [c2.name]) ++ r ≠ cd := by
            intro he
            have h3 := congrArg List.length he
            simp only [List.length_append, List.length_singleton] at h3
            omega
          have h2 := hdstT ([c2.name] ++ r)
          rw [← List.append_assoc] at h2
          rw [h2]
          exact hs1_other _ hqne)
        hdaTcd
      have htu2 : u2.fs.lookup cd = some (.dir mode) := by
        rw [hdext cd]
        exact htdcd
      have hchT : FS.chmod u2.fs cd mode = .ok (u2.fs.insert cd (.dir mode)) :=
        FS.chmod_dir mode htu2
      refine ⟨⟨u2.fs.insert cd (.dir mode), u2.tr ++ [.chmodOp cd]⟩, ?_, ?_⟩
      · show dcopy (copy n) cs cd [] ⟨name, Ftype.dir, mode⟩ opt t =
          .ok () ⟨u2.fs.insert cd (.dir mode), u2.tr ++ [.chmodOp cd]⟩
        refine mbind_ok_intro (mMkdirAll_intro hmkT) ?_
        exact chmodDeferM_ok_intro
          (mbind_ok_intro (mReadDir_intro hrdT) hdrun)
          (mChmod_intro hchT)
      · intro q
        by_cases hq : q = cd
        · subst hq
          show (u2.fs.insert q (.dir mode)).lookup q = t.fs.lookup q
          rw [FS.lookup_insert_self, htdcd]
        · show (u2.fs.insert cd (.dir mode)).lookup q = t.fs.lookup q
          rw [FS.lookup_insert_ne _ _ _ _ hq]
          exact hdext q

/-- Example state for the C6 counterexample: a single symlink `l`. -/
def exLinkSt : St := ⟨⟨[(["l"], Node.symlink ["t"])]⟩, []⟩

/-- Example state: a source directory with no children. -/
def exOneDirSt : St := ⟨⟨[(["s"], Node.dir 0o700)]⟩, []⟩

/-- Example state: a source directory containing a symlink. -/
def exTreeLinkSt : St :=
  ⟨⟨[(["s"], Node.dir 0o755), (["s", "l"], Node.symlink ["t"])]⟩, []⟩

/-- Example state: a destination overlapping the source (`a/b` is copied
onto `a`, and `a/b` contains a directory also named `b`). -/
def exOverlapSt : St :=
  ⟨⟨[(["a"], Node.dir 0o755), (["a", "b"], Node.dir 0o750),
     (["a", "b", "b"], Node.dir 0o700)]⟩, []⟩

/-- Counterexample to C6 as stated, in three parts.  (1) Copying a symlink
is not idempotent: the first run succeeds, the second fails with an
exists-error, because `os.Symlink` refuses the destination link created by
the first run.  (2) The same failure occurs when the symlink sits anywhere
inside a copied directory tree.  (3) With a destination overlapping the
source (`Copy a/b a`), both runs succeed but produce different
filesystems: the second run reads what the first run wrote, so the mode
restored on `a` drifts from the original 0750 of `a/b` to the 0700 that
the first run copied into it. -/
theorem copy_not_idempotent_cases :
    (Copy 1 ["l"] ["d"] [] exLinkSt =
        .ok () (Out.st (Copy 1 ["l"] ["d"] [] exLinkSt)) ∧
      Copy 1 ["l"] ["d"] [] (Out.st (Copy 1 ["l"] ["d"] [] exLinkSt)) =
        .err (.eexist ["d"])
          (Out.st (Copy 1 ["l"] ["d"] []
            (Out.st (Copy 1 ["l"] ["d"] [] exLinkSt))))) ∧
    (Copy 2 ["s"] ["d"] [] exTreeLinkSt =
        .ok () (Out.st (Copy 2 ["s"] ["d"] [] exTreeLinkSt)) ∧
      Copy 2 ["s"] ["d"] [] (Out.st (Copy 2 ["s"] ["d"] [] exTreeLinkSt)) =
        .err (.eexist ["d", "l"])
          (Out.st (Copy 2 ["s"] ["d"] []
            (Out.st (Copy 2 ["s"] ["d"] [] exTreeLinkSt))))) ∧
    (Copy 3 ["a", "b"] ["a"] [] exOverlapSt =
        .ok () (Out.st (Copy 3 ["a", "b"] ["a"] [] exOverlapSt)) ∧
      Copy 3 ["a", "b"] ["a"] [] (Out.st (Copy 3 ["a", "b"] ["a"] [] exOverlapSt)) =
        .ok () (Out.st (Copy 3 ["a", "b"] ["a"] []
          (Out.st (Copy 3 ["a", "b"] ["a"] [] exOverlapSt)))) ∧
      FS.lookup (Out.st (Copy 3 ["a", "b"] ["a"] [] exOverlapSt)).fs ["a"] ≠
        FS.lookup (Out.st (Copy 3 ["a", "b"] ["a"] []
          (Out.st (Copy 3 ["a", "b"] ["a"] [] exOverlapSt)))).fs ["a"]) :=
  ⟨⟨by decide, by decide⟩, ⟨by decide, by decide⟩, by decide, by decide, by decide⟩

/-- Replaying `Copy` on a regular-file source with a destination distinct
from the source: when the first run succeeds, a second run with the same
inputs also succeeds — the file and its permissions are overwritten — and
produces an extensionally identical filesystem. -/
theorem copy_file_replay (fuel : Nat) (src dest : Path) (opt : List Options)
    (m : Nat) (C : List Nat) (s s' : St)
    (hne : src ≠ dest)
    (hsrc : s.fs.lookup src = some (.file m C))
    (h : Copy fuel src dest opt s = .ok () s') :
    ∃ s'', Copy fuel src dest opt s' = .ok () s'' ∧
      ∀ q, s''.fs.lookup q = s'.fs.lookup q := by
  unfold Copy CopyButSkipSome at h
  obtain ⟨info, s1, hls, h⟩ := mbind_ok h
  obtain ⟨hls', hs1⟩ := mLstat_ok hls
  have hinfo : info = ⟨src.getLastD "", Ftype.file, m⟩ := by
    rw [show FS.lstat s.fs src = .ok (⟨src.getLastD "", Ftype.file, m⟩ : FInfo) from by
      simp [FS.lstat, hsrc, Node.finfo, Node.ftypeOf, Node.modeOf]] at hls'
    injection hls' with h1
    exact h1.symm
  subst hinfo
  have hs1f : s1.fs = s.fs := by rw [hs1]
  cases fuel with
  | zero => simp [copy] at h
  | succ n =>
    simp only [copy, List.contains_nil, Bool.false_eq_true, if_false,
      show ((⟨src.getLastD "", Ftype.file, m⟩ : FInfo).ftype == Ftype.symlink) = false from rfl,
      show ((⟨src.getLastD "", Ftype.file, m⟩ : FInfo).ftype == Ftype.dir) = false from rfl] at h
    obtain ⟨fs1, m', C', hmk, hdne, hsrc1, hdest, hframe⟩ := fcopy_ok_facts hne h
    rw [hs1f] at hmk
    have hsrc1' : fs1.lookup src = some (.file m C) :=
      FS.mkdirAll_preserves s.fs fs1 dest.dropLast 0o777 hmk src _ hsrc
    rw [hsrc1'] at hsrc1
    injection hsrc1 with hn
    injection hn with hm' hC'
    subst hm'
    subst hC'
    have hdest' : s'.fs.lookup dest = some (.file m C) := hdest
    have hsrcS : s'.fs.lookup src = some (.file m C) := by
      rw [hframe src hne]
      exact hsrc1'
    have hpos : 0 < dest.length := List.length_pos.2 hdne
    have hDA1 : fs1.dirsAlong [] dest.dropLast :=
      FS.mkdirs_ok_dirsAlong [] dest.dropLast s.fs fs1 _ hmk
    have hDA2 : s'.fs.dirsAlong [] dest.dropLast := by
      refine FS.dirsAlong_congr [] dest.dropLast fs1 s'.fs
        (fun q hq => hframe q (fun he => ?_)) hDA1
      rw [he] at hq
      rw [List.length_dropLast] at hq
      simp only [List.length_nil] at hq
      omega
    have hmk2 : FS.mkdirAll s'.fs dest.dropLast 0o777 = .ok s'.fs :=
      FS.dirsAlong_mkdirs_noop [] dest.dropLast s'.fs 0o777 hDA2
    have hcr2 : FS.create s'.fs dest = .ok (s'.fs.insert dest (.file m [])) :=
      FS.create_file hdne hdest'
    have hch2 : FS.chmod (s'.fs.insert dest (.file m [])) dest m =
        .ok ((s'.fs.insert dest (.file m [])).insert dest (.file m [])) :=
      FS.chmod_file m (FS.lookup_insert_self _ _ _)
    have hsrc3' : ((s'.fs.insert dest (.file m [])).insert dest
        (.file m [])).lookup src = some (.file m C) := by
      rw [FS.lookup_insert_ne _ _ _ _ hne, FS.lookup_insert_ne _ _ _ _ hne]
      exact hsrcS
    have hop2 : FS.openRead ((s'.fs.insert dest (.file m [])).insert dest
        (.file m [])) src = .ok C :=
      FS.openRead_file hsrc3'
    have hwr2 : FS.writeAll ((s'.fs.insert dest (.file m [])).insert dest
        (.file m [])) dest C =
        .ok (((s'.fs.insert dest (.file m [])).insert dest
          (.file m [])).insert dest (.file m C)) :=
      FS.writeAll_file C (FS.lookup_insert_self _ _ _)
    have hfc2 := @fcopy_ok_build src dest (⟨src.getLastD "", Ftype.file, m⟩ : FInfo)
      (⟨s'.fs, s'.tr ++ [.lstatOp src]⟩ : St) s'.fs
      (s'.fs.insert dest (.file m []))
      ((s'.fs.insert dest (.file m [])).insert dest (.file m []))
      (((s'.fs.insert dest (.file m [])).insert dest
        (.file m [])).insert dest (.file m C))
      C hmk2 hcr2 hch2 hop2 hwr2
    have hls2 : FS.lstat s'.fs src = .ok (⟨src.getLastD "", Ftype.file, m⟩ : FInfo) := by
      simp [FS.lstat, hsrcS, Node.finfo, Node.ftypeOf, Node.modeOf]
    refine ⟨⟨(((s'.fs.insert dest (.file m [])).insert dest
        (.file m [])).insert dest (.file m C)),
      (((((s'.tr ++ [.lstatOp src]) ++ [.mkdirAllOp dest.dropLast]) ++
        [.createOp dest]) ++ [.chmodOp dest]) ++ [.openReadOp src]) ++
        [.writeOp dest]⟩, ?_, ?_⟩
    · unfold Copy CopyButSkipSome
      refine mbind_ok_intro (mLstat_intro hls2) ?_
      exact hfc2
    · intro q
      by_cases hq : q = dest
      · subst hq
        show (((s'.fs.insert q (.file m [])).insert q
          (.file m [])).insert q (.file m C)).lookup q = s'.fs.lookup q
        rw [FS.lookup_insert_self, hdest']
      · show (((s'.fs.insert dest (.file m [])).insert dest
          (.file m [])).insert dest (.file m C)).lookup q = s'.fs.lookup q
        rw [FS.lookup_insert_ne _ _ _ _ hq, FS.lookup_insert_ne _ _ _ _ hq,
          FS.lookup_insert_ne _ _ _ _ hq]

/-- Replaying `Copy` when the destination is the source path itself and
the source is a regular file: the first run truncated the file in place,
and the second run truncates and rewrites the now-empty content, a
semantic no-op. -/
theorem copy_self_file_replay (fuel : Nat) (src : Path) (opt : List Options)
    (m : Nat) (C : List Nat) (s s2 : St)
    (hsrc : s.fs.lookup src = some (.file m C))
    (h : Copy fuel src src opt s = .ok () s2) :
    ∃ s3, Copy fuel src src opt s2 = .ok () s3 ∧
      ∀ q, s3.fs.lookup q = s2.fs.lookup q := by
  unfold Copy CopyButSkipSome at h
  obtain ⟨info, s1, hls, h⟩ := mbind_ok h
  obtain ⟨hls2, hs1⟩ := mLstat_ok hls
  have hinfo : info = ⟨src.getLastD "", Ftype.file, m⟩ := by
    rw [show FS.lstat s.fs src = .ok (⟨src.getLastD "", Ftype.file, m⟩ : FInfo) from by
      simp [FS.lstat, hsrc, Node.finfo, Node.ftypeOf, Node.modeOf]] at hls2
    injection hls2 with h1
    exact h1.symm
  subst hinfo
  have hs1f : s1.fs = s.fs := by rw [hs1]
  cases fuel with
  | zero => simp [copy] at h
  | succ n =>
    simp only [copy, List.contains_nil, Bool.false_eq_true, if_false,
      show ((⟨src.getLastD "", Ftype.file, m⟩ : FInfo).ftype == Ftype.symlink) = false from rfl,
      show ((⟨src.getLastD "", Ftype.file, m⟩ : FInfo).ftype == Ftype.dir) = false from rfl] at h
    obtain ⟨⟨⟩, sA, hmkA, h⟩ := mbind_ok h
    obtain ⟨fsA, hmkAll, hsA⟩ := mMkdirAll_ok hmkA
    have hsAf : sA.fs = fsA := by rw [hsA]
    obtain ⟨⟨⟩, sC, hcrA, h⟩ := mbind_ok h
    obtain ⟨fsC, hcr, hsC⟩ := mCreate_ok hcrA
    have hsCf : sC.fs = fsC := by rw [hsC]
    have h2 : (mbind (mChmod src m) fun _ =>
        mbind (mOpen src) fun content =>
        fcloseDeferM (mWriteAll src content)) sC = .ok () s2 := h
    obtain ⟨⟨⟩, sD, hchA, h3⟩ := mbind_ok h2
    obtain ⟨fsD, hch, hsD⟩ := mChmod_ok hchA
    have hsDf : sD.fs = fsD := by rw [hsD]
    obtain ⟨content, sE, hopA, h4⟩ := mbind_ok h3
    obtain ⟨hop, hsE⟩ := mOpen_ok hopA
    have hsEf : sE.fs = sD.fs := by rw [hsE]
    have h5 : mWriteAll src content sE = .ok () s2 := h4
    obtain ⟨fsW, hwr, hsW⟩ := mWriteAll_ok h5
    have hs2f : s2.fs = fsW := by rw [hsW]
    rw [hs1f] at hmkAll
    have hsrcA : fsA.lookup src = some (.file m C) :=
      FS.mkdirAll_preserves s.fs fsA src.dropLast 0o777 hmkAll src _ hsrc
    have hdaA : fsA.dirsAlong [] src.dropLast :=
      FS.mkdirs_ok_dirsAlong [] src.dropLast s.fs fsA 0o777 hmkAll
    rw [hsAf] at hcr
    have hsrcne : src ≠ [] := (FS.create_ok_shape _ _ _ hcr).1
    have hcr2 : FS.create fsA src = .ok (fsA.insert src (.file m [])) :=
      FS.create_file hsrcne hsrcA
    have hfsC : fsC = fsA.insert src (.file m []) := by
      rw [hcr] at hcr2
      exact Except.ok.inj hcr2
    rw [hsCf, hfsC] at hch
    have hch2 : FS.chmod (fsA.insert src (.file m [])) src m =
        .ok ((fsA.insert src (.file m [])).insert src (.file m [])) :=
      FS.chmod_file m (FS.lookup_insert_self _ _ _)
    have hfsD : fsD = (fsA.insert src (.file m [])).insert src (.file m []) := by
      rw [hch] at hch2
      exact Except.ok.inj hch2
    rw [hsDf, hfsD] at hop
    have hop2 : FS.openRead ((fsA.insert src (.file m [])).insert src
        (.file m [])) src = .ok ([] : List Nat) :=
      FS.openRead_file (FS.lookup_insert_self _ _ _)
    have hcontent : content = [] := by
      rw [hop] at hop2
      exact Except.ok.inj hop2
    subst hcontent
    rw [hsEf, hsDf, hfsD] at hwr
    have hwr2 : FS.writeAll ((fsA.insert src (.file m [])).insert src
        (.file m [])) src [] =
        .ok (((fsA.insert src (.file m [])).insert src (.file m [])).insert src
          (.file m [])) :=
      FS.writeAll_file [] (FS.lookup_insert_self _ _ _)
    have hfsW : fsW = ((fsA.insert src (.file m [])).insert src
        (.file m [])).insert src (.file m []) := by
      rw [hwr] at hwr2
      exact Except.ok.inj hwr2
    have hs2src : s2.fs.lookup src = some (.file m []) := by
      rw [hs2f, hfsW]
      exact FS.lookup_insert_self _ _ _
    have hs2other : ∀ q, q ≠ src → s2.fs.lookup q = fsA.lookup q := by
      intro q hq
      rw [hs2f, hfsW, FS.lookup_insert_ne _ _ _ _ hq, FS.lookup_insert_ne _ _ _ _ hq,
        FS.lookup_insert_ne _ _ _ _ hq]
    have hda2 : s2.fs.dirsAlong [] src.dropLast := by
      refine FS.dirsAlong_congr [] src.dropLast fsA s2.fs ?_ hdaA
      intro q hq
      refine hs2other q ?_
      intro he
      subst he
      rw [List.length_dropLast] at hq
      have hlen : 0 < q.length := List.length_pos.2 hsrcne
      simp only [List.length_nil] at hq
      omega
    have hls3 : FS.lstat s2.fs src = .ok (⟨src.getLastD "", Ftype.file, m⟩ : FInfo) := by
      simp [FS.lstat, hs2src, Node.finfo, Node.ftypeOf, Node.modeOf]
    have hmk3 : FS.mkdirAll s2.fs src.dropLast 0o777 = .ok s2.fs :=
      FS.dirsAlong_mkdirs_noop [] src.dropLast s2.fs 0o777 hda2
    have hcr3 : FS.create s2.fs src = .ok (s2.fs.insert src (.file m [])) :=
      FS.create_file hsrcne hs2src
    have hch3 : FS.chmod (s2.fs.insert src (.file m [])) src m =
        .ok ((s2.fs.insert src (.file m [])).insert src (.file m [])) :=
      FS.chmod_file m (FS.lookup_insert_self _ _ _)
    have hop3 : FS.openRead ((s2.fs.insert src (.file m [])).insert src
        (.file m [])) src = .ok ([] : List Nat) :=
      FS.openRead_file (FS.lookup_insert_self _ _ _)
    have hwr3 : FS.writeAll ((s2.fs.insert src (.file m [])).insert src
        (.file m [])) src [] =
        .ok (((s2.fs.insert src (.file m [])).insert src (.file m [])).insert src
          (.file m [])) :=
      FS.writeAll_file [] (FS.lookup_insert_self _ _ _)
    have hfc3 := @fcopy_ok_build src src (⟨src.getLastD "", Ftype.file, m⟩ : FInfo)
      (⟨s2.fs, s2.tr ++ [.lstatOp src]⟩ : St) s2.fs
      (s2.fs.insert src (.file m []))
      ((s2.fs.insert src (.file m [])).insert src (.file m []))
      (((s2.fs.insert src (.file m [])).insert src (.file m [])).insert src
        (.file m []))
      ([] : List Nat) hmk3 hcr3 hch3 hop3 hwr3
    refine ⟨⟨(((s2.fs.insert src (.file m [])).insert src (.file m [])).insert src
        (.file m [])),
      (((((s2.tr ++ [.lstatOp src]) ++ [.mkdirAllOp src.dropLast]) ++
        [.createOp src]) ++ [.chmodOp src]) ++ [.openReadOp src]) ++
        [.writeOp src]⟩, ?_, ?_⟩
    · unfold Copy CopyButSkipSome
      refine mbind_ok_intro (mLstat_intro hls3) ?_
      exact hfc3
    · intro q
      by_cases hq : q = src
      · subst hq
        show (((s2.fs.insert q (.file m [])).insert q (.file m [])).insert q
          (.file m [])).lookup q = s2.fs.lookup q
        rw [FS.lookup_insert_self, hs2src]
      · show (((s2.fs.insert src (.file m [])).insert src (.file m [])).insert src
          (.file m [])).lookup q = s2.fs.lookup q
        rw [FS.lookup_insert_ne _ _ _ _ hq, FS.lookup_insert_ne _ _ _ _ hq,
          FS.lookup_insert_ne _ _ _ _ hq]

/-- Replaying `Copy` on a symlink-free source cone whose destination is
prefix-incomparable to the source: the replay lemma applied at the top
level, with the second run's `Lstat` returning the unchanged descriptor. -/
theorem copy_tree_replay (fuel : Nat) (src dest : Path) (opt : List Options)
    (s s2 : St)
    (hp1 : ¬ src <+: dest) (hp2 : ¬ dest <+: src)
    (hnosym : ∀ r tg, s.fs.lookup (src ++ r) ≠ some (.symlink tg))
    (h : Copy fuel src dest opt s = .ok () s2) :
    ∃ s3, Copy fuel src dest opt s2 = .ok () s3 ∧
      ∀ q, s3.fs.lookup q = s2.fs.lookup q := by
  unfold Copy CopyButSkipSome at h
  obtain ⟨info, s1, hls, hcp⟩ := mbind_ok h
  obtain ⟨hls2, hs1⟩ := mLstat_ok hls
  have hs1f : s1.fs = s.fs := by rw [hs1]
  obtain ⟨node0, hnode0, hfin⟩ := FS.lstat_ok_lookup hls2
  have hsym : info.ftype ≠ .symlink := by
    intro hft
    cases node0 with
    | file m c => rw [hfin] at hft; exact Ftype.noConfusion hft
    | dir m => rw [hfin] at hft; exact Ftype.noConfusion hft
    | symlink tg =>
      refine hnosym [] tg ?_
      rw [List.append_nil]
      exact hnode0
  have hsrc_pres : ∀ r, s2.fs.lookup (src ++ r) = s.fs.lookup (src ++ r) := by
    intro r
    have hnc : NoChangeAt (src ++ r)
        (copy fuel src dest [] info ((opt ++ [DefaultOptions]).headD DefaultOptions)) := by
      refine copy_frame fuel src dest [] info _ (src ++ r) ?_ ?_
      · have h3 := (incomp_cones hp1 hp2 r []).1
        rw [List.append_nil] at h3
        exact h3
      · have h3 := (incomp_cones hp1 hp2 r []).2
        rw [List.append_nil] at h3
        exact h3
    rw [noChangeAt_of_ok hnc hcp, hs1f]
  have hda : s2.fs.dirsAlong [] dest.dropLast :=
    copy_ok_dirsAlong fuel src dest info _ s1 s2 hcp hsym
  have hsrc2 : s2.fs.lookup src = some node0 := by
    have h3 := hsrc_pres []
    rw [List.append_nil] at h3
    rw [h3]
    exact hnode0
  have hls3 : FS.lstat s2.fs src = .ok info := by
    rw [hfin]
    simp [FS.lstat, hsrc2]
  obtain ⟨t2, hrun, hext⟩ := copy_replay fuel src dest info
    ((opt ++ [DefaultOptions]).headD DefaultOptions) s1 s2
    ⟨s2.fs, s2.tr ++ [.lstatOp src]⟩ hcp hp1 hp2
    (fun r tg => by rw [hs1f]; exact hnosym r tg)
    ⟨node0, by rw [hs1f]; exact hnode0, by rw [hfin]; exact rfl⟩
    (fun r => by rw [hs1f]; exact hsrc_pres r)
    (fun r => rfl)
    hda
  refine ⟨t2, ?_, hext⟩
  unfold Copy CopyButSkipSome
  refine mbind_ok_intro (mLstat_intro hls3) ?_
  exact hrun

/-- C6 (amended): `Copy` is idempotent — when a first run succeeds, a
second run over the same inputs succeeds and leaves an extensionally
identical filesystem — in each of these settings: a symlink-free source
cone with a destination prefix-incomparable to the source; a regular-file
source with a destination distinct from the source; and a regular-file
source copied onto itself.  Outside them idempotence fails: replicating a
symlink makes the second run fail with an exists-error, and an overlapping
destination feeds the first run's output into the second run's input. -/
theorem copy_idempotent :
    (∀ (fuel : Nat) (src dest : Path) (opt : List Options) (s s2 : St),
       ¬ src <+: dest → ¬ dest <+: src →
       (∀ r tg, s.fs.lookup (src ++ r) ≠ some (.symlink tg)) →
       Copy fuel src dest opt s = .ok () s2 →
       ∃ s3, Copy fuel src dest opt s2 = .ok () s3 ∧
         ∀ q, s3.fs.lookup q = s2.fs.lookup q) ∧
    (∀ (fuel : Nat) (src dest : Path) (opt : List Options) (m : Nat) (C : List Nat)
       (s s2 : St),
       src ≠ dest → s.fs.lookup src = some (.file m C) →
       Copy fuel src dest opt s = .ok () s2 →
       ∃ s3, Copy fuel src dest opt s2 = .ok () s3 ∧
         ∀ q, s3.fs.lookup q = s2.fs.lookup q) ∧
    (∀ (fuel : Nat) (src : Path) (opt : List Options) (m : Nat) (C : List Nat)
       (s s2 : St),
       s.fs.lookup src = some (.file m C) →
       Copy fuel src src opt s = .ok () s2 →
       ∃ s3, Copy fuel src src opt s2 = .ok () s3 ∧
         ∀ q, s3.fs.lookup q = s2.fs.lookup q) := by
  refine ⟨?_, ?_, ?_⟩
  · intro fuel src dest opt s s2 hp1 hp2 hnosym h
    exact copy_tree_replay fuel src dest opt s s2 hp1 hp2 hnosym h
  · intro fuel src dest opt m C s s2 hne hsrc h
    exact copy_file_replay fuel src dest opt m C s s2 hne hsrc h
  · intro fuel src opt m C s s2 hsrc h
    exact copy_self_file_replay fuel src opt m C s s2 hsrc h

/-- Witness for the amended C6, one instance per covered setting:
replaying the copy of the childless directory `s` to `d`, of the file `a`
to `b`, and of the file `a` onto itself. -/
theorem copy_idempotent_w :
    (∃ s3, Copy 2 ["s"] ["d"] [] (Out.st (Copy 2 ["s"] ["d"] [] exOneDirSt)) =
        .ok () s3 ∧
      ∀ q, s3.fs.lookup q =
        (Out.st (Copy 2 ["s"] ["d"] [] exOneDirSt)).fs.lookup q) ∧
    (∃ s3, Copy 2 ["a"] ["b"] [] (Out.st (Copy 2 ["a"] ["b"] [] exFileSt)) =
        .ok () s3 ∧
      ∀ q, s3.fs.lookup q = (Out.st (Copy 2 ["a"] ["b"] [] exFileSt)).fs.lookup q) ∧
    (∃ s3, Copy 2 ["a"] ["a"] [] (Out.st (Copy 2 ["a"] ["a"] [] exFileSt)) =
        .ok () s3 ∧
      ∀ q, s3.fs.lookup q = (Out.st (Copy 2 ["a"] ["a"] [] exFileSt)).fs.lookup q) := by
  refine ⟨?_, ?_, ?_⟩
  · refine copy_idempotent.1 2 ["s"] ["d"] [] exOneDirSt
      (Out.st (Copy 2 ["s"] ["d"] [] exOneDirSt)) (by decide) (by decide) ?_ (by decide)
    intro r tg h
    cases r with
    | nil => exact Node.noConfusion (Option.some.inj h)
    | cons x r2 => exact Option.noConfusion h
  · exact copy_idempotent.2.1 2 ["a"] ["b"] [] 0o644 [104, 105] exFileSt
      (Out.st (Copy 2 ["a"] ["b"] [] exFileSt)) (by decide) (by decide) (by decide)
  · exact copy_idempotent.2.2 2 ["a"] [] 0o644 [104, 105] exFileSt
      (Out.st (Copy 2 ["a"] ["a"] [] exFileSt)) (by decide) (by decide)

/-- Witness for the amended C7: copying the file `a` with skip set `{x}`
under the default (Shallow) policy, the open of `a` in the trace is not a
read of the skipped path `x`; and copying the directory `s` with its child
`s/f` skipped leaves the corresponding destination `d/f` unbound. -/
theorem skip_path_never_read_w :
    ((SysOp.openReadOp ["a"]) ∈ (exFileSt).tr ∨
      (SysOp.openReadOp ["a"]).readPath ≠ some ["x"]) ∧
    ((Out.st (copy 2 ["s"] ["d"] [["s", "f"]] ⟨"s", Ftype.dir, 0o700⟩
        DefaultOptions exDirSt)).fs).lookup (["d"] ++ ["f"]) =
      exDirSt.fs.lookup (["d"] ++ ["f"]) := by
  constructor
  · exact skip_path_never_read.1 1 ["a"] ["b"] [["x"]] ⟨"a", Ftype.file, 0o644⟩
      DefaultOptions ["x"] exFileSt (SysOp.openReadOp ["a"]) (by decide)
      (fun q h => SymlinkAction.noConfusion h) (by decide)
  · exact skip_path_never_read.2 2 ["s"] ["d"] [["s", "f"]] ⟨"s", Ftype.dir, 0o700⟩
      DefaultOptions ["f"] exDirSt (by decide) (fun q h => SymlinkAction.noConfusion h)

/-! Abstract outcome model of `fcopy` for the close-error protocol.  The
deterministic filesystem model above never fails a `Close`, so the
first-error-wins protocol of the deferred `fclose` calls is verified on the
control-flow skeleton of `fcopy` with the results of the operating-system
calls abstracted as parameters. -/

/-- FcopyOutcome lists the outcomes of the operating-system calls made by
`fcopy`, in program order: `os.MkdirAll`, `os.Create`, `os.Chmod`,
`os.Open`, `io.Copy`, and the `Close` of each of the two handles (`f` is
the destination handle, `s` the source handle). -/
structure FcopyOutcome where
  mkdirErr : Option Err
  createErr : Option Err
  chmodErr : Option Err
  openErr : Option Err
  copyErr : Option Err
  closeFErr : Option Err
  closeSErr : Option Err
deriving DecidableEq, Repr

/-- Embedding of the error capture shared by Go `fclose` (lines 153-157)
and Go `chmod` (lines 161-165): the release error is recorded only when no
error is recorded yet; once one is recorded, later ones are discarded. -/
def recordFirst (releaseErr reported : Option Err) : Option Err :=
  match reported with
  | none => releaseErr
  | some e => some e

/-- Control-flow skeleton of Go `fcopy` (lines 59-83) over abstract call
outcomes: the reported error, whether handle `f` was closed, and whether
handle `s` was closed.  A failing `MkdirAll` or `Create` returns before any
defer is scheduled; after `Create` succeeds, `fclose f` is deferred, and
after `Open` succeeds, `fclose s` is deferred; deferred closes run
last-in-first-out, so `s` is closed before `f`. -/
def fcopyResult (o : FcopyOutcome) : Option Err × Bool × Bool :=
  match o.mkdirErr with
  | some e => (some e, false, false)
  | none =>
    match o.createErr with
    | some e => (some e, false, false)
    | none =>
      match o.chmodErr with
      | some e => (recordFirst o.closeFErr (some e), true, false)
      | none =>
        match o.openErr with
        | some e => (recordFirst o.closeFErr (some e), true, false)
        | none => (recordFirst o.closeFErr (recordFirst o.closeSErr o.copyErr), true, true)

/-- C5: in the file-copy operation, both handles are closed on every exit
path on which they were opened, and the reported error follows
first-error-wins: an error of the primary body is returned with all close
errors discarded; when the body succeeds, the first deferred close error
(the source handle is closed first) becomes the result and the later close
error is discarded once one is recorded; and the deferred directory chmod
likewise never overrides an error already recorded. -/
theorem fcopy_close_first_error_wins (o : FcopyOutcome) :
    ((fcopyResult o).2.1 = (o.mkdirErr.isNone && o.createErr.isNone)) ∧
    ((fcopyResult o).2.2 =
      (o.mkdirErr.isNone && o.createErr.isNone && o.chmodErr.isNone && o.openErr.isNone)) ∧
    (∀ e, o.mkdirErr = none → o.createErr = none → o.chmodErr = some e →
      (fcopyResult o).1 = some e) ∧
    (∀ e, o.mkdirErr = none → o.createErr = none → o.chmodErr = none →
      o.openErr = some e → (fcopyResult o).1 = some e) ∧
    (∀ e, o.mkdirErr = none → o.createErr = none → o.chmodErr = none →
      o.openErr = none → o.copyErr = some e → (fcopyResult o).1 = some e) ∧
    (o.mkdirErr = none → o.createErr = none → o.chmodErr = none →
      o.openErr = none → o.copyErr = none →
      (fcopyResult o).1 = recordFirst o.closeFErr o.closeSErr) ∧
    (∀ (p : Path) (mode : Nat) (e : Err) (s : St),
      ∃ s1, chmodDefer p mode (.err e s) = .err e s1) := by
  obtain ⟨mk, cr, ch, op, cp, cf, cs⟩ := o
  refine ⟨?_, ?_, ?_, ?_, ?_, ?_, ?_⟩
  · cases mk <;> cases cr <;> cases ch <;> cases op <;> cases cp <;>
      simp [fcopyResult, recordFirst]
  · cases mk <;> cases cr <;> cases ch <;> cases op <;> cases cp <;>
      simp [fcopyResult, recordFirst]
  · intro e h1 h2 h3
    simp only at h1 h2 h3
    subst h1; subst h2; subst h3
    simp [fcopyResult, recordFirst]
  · intro e h1 h2 h3 h4
    simp only at h1 h2 h3 h4
    subst h1; subst h2; subst h3; subst h4
    simp [fcopyResult, recordFirst]
  · intro e h1 h2 h3 h4 h5
    simp only at h1 h2 h3 h4 h5
    subst h1; subst h2; subst h3; subst h4; subst h5
    simp [fcopyResult, recordFirst]
  · intro h1 h2 h3 h4 h5
    simp only at h1 h2 h3 h4 h5
    subst h1; subst h2; subst h3; subst h4; subst h5
    cases cs <;> simp [fcopyResult, recordFirst]
  · intro p mode e s
    cases hc : mChmod p mode s with
    | ok a s1 => exact ⟨s1, by simp [chmodDefer, hc]⟩
    | err e2 s1 => exact ⟨s1, by simp [chmodDefer, hc]⟩

/-- Witness for C5: a run in which the body succeeds and both closes fail
reports the source handle's close error (closed first), both handles are
closed, and a deferred chmod does not override a recorded error. -/
theorem fcopy_close_first_error_wins_w :
    (fcopyResult ⟨none, none, none, none, none, some (Err.noEnt []), some Err.outOfFuel⟩).1 =
      some Err.outOfFuel ∧
    (fcopyResult ⟨none, none, none, none, none, some (Err.noEnt []), some Err.outOfFuel⟩).2.2 = true ∧
    (∃ s1, chmodDefer [] 0 (.err Err.outOfFuel ⟨⟨[]⟩, []⟩) = .err Err.outOfFuel s1) := by
  have h := fcopy_close_first_error_wins
    ⟨none, none, none, none, none, some (Err.noEnt []), some Err.outOfFuel⟩
  refine ⟨?_, ?_, h.2.2.2.2.2.2 [] 0 Err.outOfFuel ⟨⟨[]⟩, []⟩⟩
  · have := h.2.2.2.2.2.1 rfl rfl rfl rfl rfl
    simpa [recordFirst] using this
  · simpa using h.2.1

/-- C9: `Copy(source, destination, options...)` returns the same outcome
and leaves the same final state (filesystem and trace) as the skip-aware
entry point called with an empty skip list. -/
theorem Copy_eq_skipSome_empty (fuel : Nat) (src dest : Path) (opt : List Options) (s : St) :
    Copy fuel src dest opt s = CopyButSkipSome fuel src dest [] opt s := rfl

/-- C4: a dispatcher invocation whose source path is an exact-match member
of the skip set returns success immediately and leaves the state (both the
filesystem and the call trace) unchanged: no read, no write, no
recursion. -/
theorem copy_skip_noop (fuel : Nat) (src dest : Path) (toSkip : List Path)
    (info : FInfo) (opt : Options) (s : St) (h : toSkip.contains src = true) :
    copy fuel src dest toSkip info opt s = .ok () s := by
  have hm : src ∈ toSkip := by simpa using h
  simp [copy, hm]

/-- Witness for C4 at a concrete skip set and state. -/
theorem copy_skip_noop_w :
    copy 0 ["x"] ["y"] [["x"]] ⟨"x", Ftype.file, 0o644⟩ DefaultOptions ⟨⟨[]⟩, []⟩ =
      .ok () ⟨⟨[]⟩, []⟩ :=
  copy_skip_noop 0 ["x"] ["y"] [["x"]] ⟨"x", Ftype.file, 0o644⟩ DefaultOptions ⟨⟨[]⟩, []⟩
    (by decide)

/-- C10: when the top-level source is in the skip list but the initial
non-following stat fails, the skip-aware entry point returns the stat
error (the stat is performed and traced before the skip check applies),
not success. -/
theorem skiplist_lstat_error_first (fuel : Nat) (src dest : Path) (toSkip : List Path)
    (opt : List Options) (s : St) (hmem : src ∈ toSkip) (hmiss : s.fs.lookup src = none) :
    CopyButSkipSome fuel src dest toSkip opt s =
      .err (.noEnt src) ⟨s.fs, s.tr ++ [.lstatOp src]⟩ := by
  simp [CopyButSkipSome, mbind, mLstat, FS.lstat, hmiss]

/-- Witness for C10: the missing path `x` is in the skip list, yet the
entry point reports its stat error. -/
theorem skiplist_lstat_error_first_w :
    CopyButSkipSome 1 ["x"] ["d"] [["x"]] [] ⟨⟨[]⟩, []⟩ =
      .err (.noEnt ["x"]) ⟨⟨[]⟩, [.lstatOp ["x"]]⟩ :=
  skiplist_lstat_error_first 1 ["x"] ["d"] [["x"]] [] ⟨⟨[]⟩, []⟩ (by decide) (by decide)

/-- C8: under the Deep policy, the symlink resolver reads the link's
target, stats it without following, and re-enters the dispatcher on the
resolved target with an EMPTY skip set and the same options. -/
theorem onsymlink_deep_dispatch (fuel : Nat) (src dest : Path) (info : FInfo)
    (opt : Options) (h : effOnSymlink opt src = .Deep) (s : St) :
    onsymlink (copy fuel) src dest info opt s =
      (mbind (mReadlink src) fun orig =>
       mbind (mLstat orig) fun info2 =>
       copy fuel orig dest [] info2 opt) s := by
  unfold onsymlink
  rw [h]

/-- Witness for C8 at a concrete symlink and Deep-policy options. -/
theorem onsymlink_deep_dispatch_w :
    onsymlink (copy 1) ["l"] ["d"] ⟨"l", Ftype.symlink, 0⟩
        ⟨some fun _ => SymlinkAction.Deep⟩
        ⟨⟨[(["l"], Node.symlink ["t"]), (["t"], Node.file 0o600 [9])]⟩, []⟩ =
      (mbind (mReadlink ["l"]) fun orig =>
       mbind (mLstat orig) fun info2 =>
       copy 1 orig ["d"] [] info2 ⟨some fun _ => SymlinkAction.Deep⟩)
        ⟨⟨[(["l"], Node.symlink ["t"]), (["t"], Node.file 0o600 [9])]⟩, []⟩ :=
  onsymlink_deep_dispatch 1 ["l"] ["d"] ⟨"l", Ftype.symlink, 0⟩
    ⟨some fun _ => SymlinkAction.Deep⟩ rfl
    ⟨⟨[(["l"], Node.symlink ["t"]), (["t"], Node.file 0o600 [9])]⟩, []⟩

/-- C3: the first failing child of a directory stops the processing of all
remaining siblings (the result does not depend on them at all), and its
error is propagated upward unmodified after the directory's
permission-restoring finalizer has run. -/
theorem dcopy_first_error_stops :
    (∀ (copyRec : Path → Path → List Path → FInfo → Options → M Unit)
       (srcdir destdir : Path) (toSkip : List Path) (opt : Options)
       (c : FInfo) (rest : List FInfo) (s : St) (e : Err) (s1 : St),
       copyRec (srcdir ++ [c.name]) (destdir ++ [c.name]) toSkip c opt s = .err e s1 →
       dchildren copyRec srcdir destdir toSkip opt (c :: rest) s = .err e s1) ∧
    (∀ (copyRec : Path → Path → List Path → FInfo → Options → M Unit)
       (srcdir destdir : Path) (toSkip : List Path) (info : FInfo) (opt : Options)
       (c : FInfo) (rest : List FInfo) (s s1 s2 : St) (e : Err) (s3 : St),
       mMkdirAll destdir tmpPermissionForDirectory s = .ok () s1 →
       mReadDir srcdir s1 = .ok (c :: rest) s2 →
       copyRec (srcdir ++ [c.name]) (destdir ++ [c.name]) toSkip c opt s2 = .err e s3 →
       dcopy copyRec srcdir destdir toSkip info opt s =
         chmodDefer destdir info.mode (.err e s3) ∧
       ∃ s4, chmodDefer destdir info.mode (.err e s3) = .err e s4) := by
  constructor
  · intro copyRec srcdir destdir toSkip opt c rest s e s1 h
    simp only [dchildren, mbind, h]
  · intro copyRec srcdir destdir toSkip info opt c rest s s1 s2 e s3 h1 h2 h3
    constructor
    · simp only [dcopy, dchildren, mbind, chmodDeferM, h1, h2, h3]
    · cases hc : mChmod destdir info.mode s3 with
      | ok a s4 => exact ⟨s4, by simp [chmodDefer, hc]⟩
      | err e2 s4 => exact ⟨s4, by simp [chmodDefer, hc]⟩

/-- Witness for C3: with a failing first child, `dcopy` returns exactly the
child's error after the finalizer has run. -/
theorem dcopy_first_error_stops_w :
    dcopy failRec ["s"] ["d"] [] ⟨"s", Ftype.dir, 0o700⟩ DefaultOptions exDirSt =
      chmodDefer ["d"] (FInfo.mode ⟨"s", Ftype.dir, 0o700⟩)
        (.err Err.outOfFuel exDirSt2) ∧
    ∃ s4, chmodDefer ["d"] (FInfo.mode ⟨"s", Ftype.dir, 0o700⟩)
        (.err Err.outOfFuel exDirSt2) = .err Err.outOfFuel s4 :=
  dcopy_first_error_stops.2 failRec ["s"] ["d"] [] ⟨"s", Ftype.dir, 0o700⟩
    DefaultOptions ⟨"f", Ftype.file, 0o644⟩ [] exDirSt exDirSt1 exDirSt2
    Err.outOfFuel exDirSt2 (by decide) (by decide) rfl

end GoCopy
